import Mathlib

/-!
Verification development for the Arcane Gamemaster mechanical rules engine
(dice resolution subsystem and combat state machine).

The TypeScript sources are shallowly embedded: JavaScript numbers are
modelled as `Int` (indices as `Nat`), thrown exceptions as `Option`/`Except`
results, and the cryptographic 32-bit random words consumed by the dice
engine as an explicit stream `words : Nat → Nat` (the i-th draw).
`Array.prototype.sort` with a consistent comparator is required by the
ECMAScript specification to be a stable sort; a stable sort by a total
preorder has a unique result, so it is embedded as `List.insertionSort`
(which Mathlib proves stable) over the comparator's reflexive closure.
-/

namespace AGM

/-! ### Dice notation parsing (DiceEngine.ts: parseDiceNotation) -/

/-- Parsed dice expression (source interface `ParsedDice`). -/
structure ParsedDice where
  count : Int
  sides : Int
  modifier : Int
  keepHighest : Option Int
  keepLowest : Option Int
deriving DecidableEq

/-- Error cases of the dice parser. `invalidFormat` embeds the source error
"Invalid dice notation" (spec name `InvalidNotation`); the constructor is
renamed here purely for lexical reasons. -/
inductive DiceError where
  | invalidFormat
  | invalidDiceCount
  | invalidDiceSides
deriving DecidableEq

/-- Numeric value of a digit string (source: `parseInt(s, 10)` on an
all-digit string). -/
def digitsVal (ds : List Char) : Nat :=
  ds.foldl (fun acc c => 10 * acc + (c.toNat - '0'.toNat)) 0

/-- Split off the longest leading digit run, as the greedy `\d*` of the
source regex does. -/
def spanDigits : List Char → List Char × List Char
  | [] => ([], [])
  | c :: cs =>
    if c.isDigit then
      let p := spanDigits cs
      (c :: p.1, p.2)
    else ([], c :: cs)

/-- The capture groups of the source regex
`^(\d*)d(\d+)(kh(\d+)|kl(\d+))?([+-]\d+)?$`: count digits, sides digits,
an optional keep part (`true` for `kh`), and an optional signed modifier. -/
structure RawDice where
  countStr : List Char
  sidesStr : List Char
  keep : Option (Bool × List Char)
  modPart : Option (Char × List Char)
deriving DecidableEq

/-- The character string a `RawDice` decomposition denotes. -/
def RawDice.renders (p : RawDice) : List Char :=
  p.countStr ++ 'd' ::
    (p.sidesStr ++
      (match p.keep with
       | none => []
       | some (true, n) => 'k' :: 'h' :: n
       | some (false, n) => 'k' :: 'l' :: n) ++
      (match p.modPart with
       | none => []
       | some (sgn, n) => sgn :: n))

/-- Well-formedness of a decomposition: exactly the constraints of the
pattern `[count]d<sides>[kh<N>|kl<N>][+|-modifier]` described in the spec
(count digits possibly empty, sides digits nonempty, keep digits nonempty,
modifier sign `+` or `-` with nonempty digits). -/
def RawDice.WF (p : RawDice) : Prop :=
  (∀ c ∈ p.countStr, c.isDigit = true) ∧
  p.sidesStr ≠ [] ∧ (∀ c ∈ p.sidesStr, c.isDigit = true) ∧
  (∀ kn, p.keep = some kn → kn.2 ≠ [] ∧ ∀ c ∈ kn.2, c.isDigit = true) ∧
  (∀ mn, p.modPart = some mn → (mn.1 = '+' ∨ mn.1 = '-') ∧ mn.2 ≠ [] ∧
    ∀ c ∈ mn.2, c.isDigit = true)

/-- Parse the optional `kh<N>|kl<N>` group. -/
def parseKeep : List Char → Option (Option (Bool × List Char) × List Char)
  | c1 :: c2 :: rest =>
    if c1 = 'k' ∧ c2 = 'h' then
      if (spanDigits rest).1.isEmpty then none
      else some (some (true, (spanDigits rest).1), (spanDigits rest).2)
    else if c1 = 'k' ∧ c2 = 'l' then
      if (spanDigits rest).1.isEmpty then none
      else some (some (false, (spanDigits rest).1), (spanDigits rest).2)
    else some (none, c1 :: c2 :: rest)
  | rest => some (none, rest)

/-- Parse the optional trailing `[+-]\d+` group (anchored at the end). -/
def parseMod : List Char → Option (Option (Char × List Char))
  | [] => some none
  | c :: rest =>
    if c == '+' || c == '-' then
      if (spanDigits rest).1.isEmpty || !(spanDigits rest).2.isEmpty then
        none
      else some (some (c, (spanDigits rest).1))
    else none

/-- Deterministic recursive-descent equivalent of matching the anchored
source regex against a normalized string (greedy digit runs are forced:
each digit run is followed by a non-digit or the end of the string). -/
def parseDiceChars (input : List Char) : Option RawDice :=
  match (spanDigits input).2 with
  | c :: rest2 =>
    if c = 'd' then
      if (spanDigits rest2).1.isEmpty then none
      else
        match parseKeep (spanDigits rest2).2 with
        | none => none
        | some kr =>
          match parseMod kr.2 with
          | none => none
          | some modPart =>
            some ⟨(spanDigits input).1, (spanDigits rest2).1, kr.1, modPart⟩
    else none
  | [] => none

/-- Source normalization `notation.toLowerCase().replace(/\s/g, '')`. -/
def normalizeInput (s : String) : List Char :=
  (s.data.map Char.toLower).filter (fun c => !c.isWhitespace)

/-- `parseInt(countStr) || 1` — the count with its default. -/
def RawDice.countVal (p : RawDice) : Int :=
  if p.countStr.isEmpty then 1 else (digitsVal p.countStr : Int)

def RawDice.sidesVal (p : RawDice) : Int := (digitsVal p.sidesStr : Int)

/-- `parseInt` of the signed modifier group, defaulting to 0. -/
def RawDice.modVal (p : RawDice) : Int :=
  match p.modPart with
  | none => 0
  | some (sgn, ds) =>
    if sgn == '-' then -(digitsVal ds : Int) else (digitsVal ds : Int)

def RawDice.khVal (p : RawDice) : Option Int :=
  match p.keep with
  | some (true, n) => some (digitsVal n : Int)
  | _ => none

def RawDice.klVal (p : RawDice) : Option Int :=
  match p.keep with
  | some (false, n) => some (digitsVal n : Int)
  | _ => none

/-- Embedding of the source `parseDiceNotation` (the name is shortened
for lexical reasons): pattern match, then count bound check, then sides
bound check. -/
def parseDice (s : String) : Except DiceError ParsedDice :=
  match parseDiceChars (normalizeInput s) with
  | none => .error .invalidFormat
  | some p =>
    if p.countVal < 1 ∨ 100 < p.countVal then .error .invalidDiceCount
    else if p.sidesVal < 1 ∨ 100 < p.sidesVal then .error .invalidDiceSides
    else .ok ⟨p.countVal, p.sidesVal, p.modVal, p.khVal, p.klVal⟩

/-! ### Random source (DiceEngine.ts: randomInt, rollDie) -/

/-- Embedding of the cryptographically-strong path of `randomInt`:
`min + (array[0] % range)` where `array[0]` is a uniformly drawn 32-bit
word. For `0 ≤ word` and `0 < range` the JavaScript `%` agrees with
`Int.emod`. -/
def randomInt (min max : Int) (word : Nat) : Int :=
  let range := max - min + 1
  min + (word : Int) % range

/-- Source `rollDie`. -/
def rollDie (sides : Int) (word : Nat) : Int :=
  randomInt 1 sides word

/-- Number of the 2^32 possible generator words that produce the outcome
`v` from `randomInt min max`. -/
def cryptoOutcomeCount (min max v : Int) : Nat :=
  ((Finset.range (2 ^ 32)).filter (fun w => randomInt min max w = v)).card

/-! ### Initiative rolling (DiceEngine.ts: rollInitiative) -/

/-- The per-combatant input to `rollInitiative`. -/
structure InitEntry where
  id : String
  name : String
  dexterityModifier : Int
deriving DecidableEq

/-- Source interface `InitiativeResult`. -/
structure InitiativeResult where
  combatantId : String
  combatantName : String
  roll : Int
  modifier : Int
  total : Int
deriving DecidableEq

/-- The unsorted result list: one d20 per combatant (consuming one random
word each, in input order), `total = roll + dexterityModifier`. -/
def initRolls : Nat → List InitEntry → (Nat → Nat) → List InitiativeResult
  | _, [], _ => []
  | i, c :: rest, words =>
    { combatantId := c.id, combatantName := c.name,
      roll := rollDie 20 (words i), modifier := c.dexterityModifier,
      total := rollDie 20 (words i) + c.dexterityModifier } ::
      initRolls (i + 1) rest words

/-- Reflexive closure of the sort comparator
`(a, b) => b.total !== a.total ? b.total - a.total : b.modifier - a.modifier`:
`a` may be placed before `b` iff the comparator is ≤ 0 on `(a, b)`. -/
def initLE (a b : InitiativeResult) : Prop :=
  b.total < a.total ∨ (a.total = b.total ∧ b.modifier ≤ a.modifier)

instance : DecidableRel initLE := fun a b => by
  unfold initLE; infer_instance

instance : IsTotal InitiativeResult initLE :=
  ⟨fun a b => by unfold initLE; omega⟩

instance : IsTrans InitiativeResult initLE :=
  ⟨fun a b c hab hbc => by unfold initLE at *; omega⟩

/-- Embedding of `rollInitiative`: roll, then stable-sort descending by
total with ties broken by descending modifier. -/
def rollInitiative (combatants : List InitEntry) (words : Nat → Nat) :
    List InitiativeResult :=
  (initRolls 0 combatants words).insertionSort initLE

/-! ### Combat data model (types.ts projections used by CombatEngine.ts) -/

inductive CombatantType where
  | player_character
  | enemy
  | ally
  | neutral
deriving DecidableEq

inductive CombatantStatus where
  | active
  | defeated
  | fled
deriving DecidableEq

inductive DurationType where
  | rounds
  | untilSave
  | untilDispelled
  | untilRest
deriving DecidableEq

/-- Condition duration (`type` plus optional round count; the engine never
reads the optional `ability`/`restType` fields, which are omitted). -/
structure Duration where
  type : DurationType
  value : Option Int
deriving DecidableEq

/-- Active condition; condition names are embedded as strings. -/
structure ActiveCondition where
  name : String
  source : String
  duration : Duration
deriving DecidableEq

structure TurnResources where
  hasAction : Bool
  hasBonusAction : Bool
  hasReaction : Bool
  movementRemaining : Int
deriving DecidableEq

structure Initiative where
  roll : Int
  modifier : Int
  total : Int
deriving DecidableEq

structure Combatant where
  id : String
  name : String
  type : CombatantType
  initiative : Initiative
  currentHp : Int
  maxHp : Int
  tempHp : Int
  armorClass : Int
  speed : Int
  conditions : List ActiveCondition
  status : CombatantStatus
  turnResources : TurnResources
  sourceId : String
  isPlayer : Bool
deriving DecidableEq

structure Combat where
  id : String
  round : Int
  initiativeOrder : List Combatant
  currentTurnIndex : Nat
  surprisedCombatantIds : List String
  environmentalEffects : List String
  isActive : Bool
deriving DecidableEq

/-- Character snapshot, restricted to the fields the combat engine reads. -/
structure Character where
  id : String
  name : String
  dexterity : Int
  currentHp : Int
  maxHp : Int
  tempHp : Int
  armorClass : Int
  speed : Int
  conditions : List ActiveCondition
deriving DecidableEq

/-- Monster stat block, restricted to the fields the combat engine reads
(`walkSpeed` is `speed.walk`). -/
structure MonsterStatBlock where
  name : String
  dexterity : Int
  hitPoints : Int
  armorClass : Int
  walkSpeed : Int
deriving DecidableEq

/-- Source `getAbilityModifier`: `Math.floor((score - 10) / 2)`. -/
def getAbilityModifier (score : Int) : Int :=
  Int.fdiv (score - 10) 2

/-! ### Combatant construction (CombatEngine.ts helpers) -/

def createDefaultTurnResources (speed : Int) : TurnResources :=
  { hasAction := true, hasBonusAction := true, hasReaction := true,
    movementRemaining := speed }

def createCombatantFromCharacter (character : Character)
    (initiative : InitiativeResult) : Combatant :=
  { id := character.id, name := character.name,
    type := CombatantType.player_character,
    initiative :=
      { roll := initiative.roll, modifier := initiative.modifier,
        total := initiative.total },
    currentHp := character.currentHp, maxHp := character.maxHp,
    tempHp := character.tempHp, armorClass := character.armorClass,
    speed := character.speed, conditions := character.conditions,
    status := if 0 < character.currentHp then .active else .defeated,
    turnResources := createDefaultTurnResources character.speed,
    sourceId := character.id, isPlayer := true }

/-- Source `createCombatantFromMonster`; every caller in the source passes
an explicit `instanceId`, so the UUID default is not modelled. -/
def createCombatantFromMonster (monster : MonsterStatBlock)
    (initiative : InitiativeResult) (type : CombatantType)
    (instanceId : String) : Combatant :=
  { id := instanceId, name := monster.name, type := type,
    initiative :=
      { roll := initiative.roll,
        modifier := getAbilityModifier monster.dexterity,
        total := initiative.total },
    currentHp := monster.hitPoints, maxHp := monster.hitPoints,
    tempHp := 0, armorClass := monster.armorClass,
    speed := monster.walkSpeed, conditions := [],
    status := .active,
    turnResources := createDefaultTurnResources monster.walkSpeed,
    sourceId := monster.name, isPlayer := false }

/-! ### startCombat (CombatEngine.ts) -/

/-- Lowercase and collapse each whitespace run to one underscore
(source: `name.toLowerCase().replace(/\s+/g, '_')`). -/
def collapseWsAux : Bool → List Char → List Char
  | _, [] => []
  | prevWs, c :: rest =>
    if c.isWhitespace then
      (if prevWs then [] else ['_']) ++ collapseWsAux true rest
    else c :: collapseWsAux false rest

def monsterSlug (name : String) : String :=
  String.mk (collapseWsAux false (name.data.map Char.toLower))

inductive EntrySource where
  | chr (c : Character)
  | mon (m : MonsterStatBlock)
deriving DecidableEq

/-- An element of the `initiativeCombatants` array built by `startCombat`. -/
structure InitCombatant where
  id : String
  name : String
  dexterityModifier : Int
  source : EntrySource
  type : CombatantType
deriving DecidableEq

def charEntries (characters : List Character) : List InitCombatant :=
  characters.map fun ch =>
    { id := ch.id, name := ch.name,
      dexterityModifier := getAbilityModifier ch.dexterity,
      source := .chr ch, type := .player_character }

/-- Display name of the enemy monster at position `i` (0-based) of the
full enemy list: suffixed with `i + 1` when the list has more than one
entry and this monster's name occurs more than once in it. -/
def enemyEntryName (monsters : List MonsterStatBlock) (i : Nat)
    (monster : MonsterStatBlock) : String :=
  if 1 < monsters.length ∧
      1 < (monsters.filter fun m => m.name == monster.name).length then
    monster.name ++ " " ++ toString (i + 1)
  else monster.name

def enemyEntriesFrom (monsters : List MonsterStatBlock) :
    Nat → List MonsterStatBlock → List InitCombatant
  | _, [] => []
  | i, m :: rest =>
    { id := monsterSlug m.name ++ "_" ++ toString (i + 1),
      name := enemyEntryName monsters i m,
      dexterityModifier := getAbilityModifier m.dexterity,
      source := .mon m, type := .enemy } ::
      enemyEntriesFrom monsters (i + 1) rest

def enemyEntries (monsters : List MonsterStatBlock) : List InitCombatant :=
  enemyEntriesFrom monsters 0 monsters

def allyEntriesFrom : Nat → List MonsterStatBlock → List InitCombatant
  | _, [] => []
  | i, m :: rest =>
    { id := "ally_" ++ monsterSlug m.name ++ "_" ++ toString (i + 1),
      name := m.name ++ " (Ally)",
      dexterityModifier := getAbilityModifier m.dexterity,
      source := .mon m, type := .ally } ::
      allyEntriesFrom (i + 1) rest

def allyEntries (allyMonsters : List MonsterStatBlock) : List InitCombatant :=
  allyEntriesFrom 0 allyMonsters

/-- Embedding of `startCombat`. The combat UUID is irrelevant to every
claim and embedded as a constant; randomness is the explicit word
stream consumed by `rollInitiative`. The source looks each initiative
result's entry up with a non-null assertion; the embedding uses
`find?`/`filterMap` (by construction every id is found). -/
def startCombat (characters : List Character)
    (monsters allyMonsters : List MonsterStatBlock)
    (surprisedIds : List String) (words : Nat → Nat) : Combat :=
  let entries :=
    charEntries characters ++ enemyEntries monsters ++ allyEntries allyMonsters
  let results :=
    rollInitiative
      (entries.map fun e =>
        { id := e.id, name := e.name, dexterityModifier := e.dexterityModifier })
      words
  let combatants := results.filterMap fun result =>
    (entries.find? fun e => e.id == result.combatantId).map fun src =>
      match src.source with
      | .chr ch => createCombatantFromCharacter ch result
      | .mon m =>
        { createCombatantFromMonster m result src.type src.id with
            name := src.name }
  { id := "combat", round := 1, initiativeOrder := combatants,
    currentTurnIndex := 0, surprisedCombatantIds := surprisedIds,
    environmentalEffects := [], isActive := true }

/-! ### Turn progression (CombatEngine.ts: getCurrentCombatant, nextTurn,
processEndOfRound) -/

def getCurrentCombatant (combat : Combat) : Option Combatant :=
  if !combat.isActive || combat.initiativeOrder.isEmpty then none
  else combat.initiativeOrder[combat.currentTurnIndex]?

/-- JavaScript truthiness of the optional round count. -/
def truthyVal : Option Int → Bool
  | none => false
  | some v => v != 0

/-- One combatant's condition after the end-of-round decrement step. -/
def tickCondition (condition : ActiveCondition) : ActiveCondition :=
  if condition.duration.type == .rounds && truthyVal condition.duration.value then
    { condition with
        duration :=
          { condition.duration with
              value := condition.duration.value.map (· - 1) } }
  else condition

/-- The end-of-round filter
`type !== 'rounds' || (value && value > 0)` (JavaScript truthiness). -/
def keepCondition (condition : ActiveCondition) : Bool :=
  condition.duration.type != .rounds ||
    (match condition.duration.value with
     | some v => v != 0 && decide (0 < v)
     | none => false)

def endOfRoundCombatant (combatant : Combatant) : Combatant :=
  { combatant with
      conditions := (combatant.conditions.map tickCondition).filter keepCondition }

def processEndOfRound (combat : Combat) : Combat :=
  { combat with
      round := combat.round + 1,
      initiativeOrder := combat.initiativeOrder.map endOfRoundCombatant }

/-- The do-while guard `initiativeOrder[nextIndex].status !== 'active'`
(an out-of-range access reads `undefined`, which differs from `'active'`). -/
def badAt (c : Combat) (i : Nat) : Bool :=
  match c.initiativeOrder[i]? with
  | some cb => cb.status != CombatantStatus.active
  | none => true

/-- One body execution of the search loop of `nextTurn`: step the index
modulo the order length and run end-of-round processing on wrapping to 0. -/
def loopStep (n idx : Nat) (updated : Combat) : Nat × Combat :=
  let idx' := (idx + 1) % n
  let updated' := if idx' = 0 then processEndOfRound updated else updated
  (idx', updated')

/-- The do-while loop of `nextTurn`; `remaining` is
`maxIterations - iterations - 1`, so the loop exits after the body when it
reaches 0 (mirroring the `iterations < maxIterations` bound). -/
def loopGo (n : Nat) : Nat → Nat → Combat → Nat × Combat
  | 0, idx, updated => loopStep n idx updated
  | r + 1, idx, updated =>
    let p := loopStep n idx updated
    if badAt p.2 p.1 then loopGo n r p.1 p.2 else p

/-- Landing logic of `nextTurn` after the search loop returned
`(nextIndex, updated)`: reset the landed combatant's turn resources and
compute the surprise flag (`newRound === 1` and the landed id is in the
surprise set; the source's `newRound` always equals `updated.round`).
Returns the landed combat and the flag. -/
def landCombat (nextIndex : Nat) (updated : Combat) : Combat × Bool :=
  match updated.initiativeOrder[nextIndex]? with
  | none =>
    ({ updated with round := updated.round, currentTurnIndex := nextIndex },
     false)
  | some cur =>
    ({ updated with
        round := updated.round
        currentTurnIndex := nextIndex
        initiativeOrder := updated.initiativeOrder.set nextIndex
          { cur with turnResources := createDefaultTurnResources cur.speed } },
     updated.round == 1 && updated.surprisedCombatantIds.contains cur.id)

/-- Fuel-indexed embedding of the (terminating) recursion of `nextTurn`;
`nextTurn` supplies fuel exceeding the maximal recursion depth. -/
def nextTurnAux : Nat → Combat → Combat
  | 0, c => c
  | fuel + 1, c =>
    if c.isActive = false then c
    else if (c.initiativeOrder.filter fun cb =>
        cb.status == CombatantStatus.active).length = 0 then
      { c with isActive := false }
    else
      if (landCombat
          (loopGo c.initiativeOrder.length (c.initiativeOrder.length - 1)
            c.currentTurnIndex c).1
          (loopGo c.initiativeOrder.length (c.initiativeOrder.length - 1)
            c.currentTurnIndex c).2).2 then
        nextTurnAux fuel
          (landCombat
            (loopGo c.initiativeOrder.length (c.initiativeOrder.length - 1)
              c.currentTurnIndex c).1
            (loopGo c.initiativeOrder.length (c.initiativeOrder.length - 1)
              c.currentTurnIndex c).2).1
      else
        (landCombat
          (loopGo c.initiativeOrder.length (c.initiativeOrder.length - 1)
            c.currentTurnIndex c).1
          (loopGo c.initiativeOrder.length (c.initiativeOrder.length - 1)
            c.currentTurnIndex c).2).1

def nextTurn (c : Combat) : Combat :=
  nextTurnAux (c.initiativeOrder.length + 2) c

/-! ### Damage, healing, conditions, resources (CombatEngine.ts) -/

/-- Index and value of the combatant `findIndex((c) => c.id === targetId)`
selects; `none` embeds the thrown `Combatant not found` error. -/
def findTarget (combat : Combat) (targetId : String) :
    Option (Nat × Combatant) :=
  match combat.initiativeOrder.findIdx? (fun cb => cb.id == targetId) with
  | none => none
  | some i => combat.initiativeOrder[i]?.map fun cb => (i, cb)

structure DamageResult where
  combat : Combat
  actualDamage : Int
  wasKnockedOut : Bool
  wasDowned : Bool
deriving DecidableEq

/-- The `unconscious` condition pushed onto a downed player. -/
def unconsciousCondition : ActiveCondition :=
  { name := "unconscious", source := "damage",
    duration := { type := .untilDispelled, value := none } }

def applyDamage (combat : Combat) (targetId : String) (amount : Int)
    (_damageType : String) (_source : String) : Option DamageResult :=
  match findTarget combat targetId with
  | none => none
  | some (targetIndex, target) =>
    let remainingDamage := max 0 amount
    let tempApplied :=
      if 0 < target.tempHp then
        if target.tempHp ≤ remainingDamage then
          (0, remainingDamage - target.tempHp, target.tempHp)
        else
          (target.tempHp - remainingDamage, 0, remainingDamage)
      else (target.tempHp, remainingDamage, 0)
    let newTempHp := tempApplied.1
    let remainingDamage := tempApplied.2.1
    let actualDamage := tempApplied.2.2 + remainingDamage
    let newCurrentHp := max 0 (target.currentHp - remainingDamage)
    let wasKnockedOut := 0 < target.currentHp ∧ newCurrentHp = 0
    let wasDowned := wasKnockedOut ∧ target.isPlayer = true
    let newStatus :=
      if newCurrentHp = 0 then
        if target.isPlayer then CombatantStatus.active else .defeated
      else target.status
    let newConditions :=
      if wasDowned then target.conditions ++ [unconsciousCondition]
      else target.conditions
    let updatedOrder := combat.initiativeOrder.set targetIndex
      { target with
          currentHp := newCurrentHp
          tempHp := newTempHp
          status := newStatus
          conditions := newConditions }
    some { combat := { combat with initiativeOrder := updatedOrder },
           actualDamage := actualDamage,
           wasKnockedOut := decide wasKnockedOut,
           wasDowned := decide wasDowned }

structure HealResult where
  combat : Combat
  actualHealing : Int
  wasRevived : Bool
deriving DecidableEq

def applyHealing (combat : Combat) (targetId : String) (amount : Int)
    (_source : String) : Option HealResult :=
  match findTarget combat targetId with
  | none => none
  | some (targetIndex, target) =>
    let wasAtZero := target.currentHp = 0
    let newCurrentHp := min target.maxHp (target.currentHp + amount)
    let actualHealing := newCurrentHp - target.currentHp
    let newConditions :=
      if wasAtZero ∧ 0 < newCurrentHp then
        target.conditions.filter fun cd => cd.name != "unconscious"
      else target.conditions
    let updatedOrder := combat.initiativeOrder.set targetIndex
      { target with
          currentHp := newCurrentHp
          conditions := newConditions
          status := if 0 < newCurrentHp then .active else target.status }
    some { combat := { combat with initiativeOrder := updatedOrder },
           actualHealing := actualHealing,
           wasRevived := decide (wasAtZero ∧ 0 < newCurrentHp) }

def addCondition (combat : Combat) (targetId : String)
    (condition : ActiveCondition) : Option Combat :=
  match findTarget combat targetId with
  | none => none
  | some (targetIndex, target) =>
    if target.conditions.any (fun cd => cd.name == condition.name) then
      match target.conditions.findIdx? (fun cd => cd.name == condition.name) with
      | none => some combat
      | some existingIndex =>
        match target.conditions[existingIndex]? with
        | none => some combat
        | some existing =>
          if condition.duration.type == .rounds &&
              existing.duration.type == .rounds &&
              (match condition.duration.value with
               | some v => decide ((existing.duration.value.getD 0) < v)
               | none => false) then
            let updatedConditions :=
              target.conditions.set existingIndex condition
            some { combat with
                initiativeOrder := combat.initiativeOrder.set targetIndex
                  { target with conditions := updatedConditions } }
          else some combat
    else
      some { combat with
          initiativeOrder := combat.initiativeOrder.set targetIndex
            { target with conditions := target.conditions ++ [condition] } }

def removeCondition (combat : Combat) (targetId : String)
    (conditionName : String) : Option Combat :=
  match findTarget combat targetId with
  | none => none
  | some (targetIndex, target) =>
    some { combat with
        initiativeOrder := combat.initiativeOrder.set targetIndex
          { target with
              conditions :=
                target.conditions.filter fun cd => cd.name != conditionName } }

def useMovement (combat : Combat) (combatantId : String) (amount : Int) :
    Combat :=
  match findTarget combat combatantId with
  | none => combat
  | some (index, combatant) =>
    let newRemaining :=
      max 0 (combatant.turnResources.movementRemaining - amount)
    { combat with
        initiativeOrder := combat.initiativeOrder.set index
          { combatant with
              turnResources :=
                { combatant.turnResources with
                    movementRemaining := newRemaining } } }

def addTempHp (combat : Combat) (targetId : String) (amount : Int) : Combat :=
  match findTarget combat targetId with
  | none => combat
  | some (index, combatant) =>
    { combat with
        initiativeOrder := combat.initiativeOrder.set index
          { combatant with tempHp := max combatant.tempHp amount } }

def flee (combat : Combat) (combatantId : String) : Combat :=
  match findTarget combat combatantId with
  | none => combat
  | some (index, combatant) =>
    { combat with
        initiativeOrder := combat.initiativeOrder.set index
          { combatant with status := .fled } }

/-! ### Invariants and concrete fixtures -/

/-- Condition names carried by a combatant. -/
def condNames (cb : Combatant) : List String :=
  cb.conditions.map ActiveCondition.name

/-- Data-model invariant: at most one `ActiveCondition` per distinct
condition name per combatant. -/
def condNamesNodup (c : Combat) : Prop :=
  ∀ cb ∈ c.initiativeOrder, (condNames cb).Nodup

instance (c : Combat) : Decidable (condNamesNodup c) := by
  unfold condNamesNodup; infer_instance

/-- Data-model numeric bounds for one combatant. -/
def hpBounds (cb : Combatant) : Prop :=
  0 ≤ cb.currentHp ∧ cb.currentHp ≤ cb.maxHp ∧ 0 ≤ cb.tempHp ∧
    0 ≤ cb.turnResources.movementRemaining

/-- Data-model numeric bounds for a whole combat (with nonnegative speeds,
which turn-resource resets copy into `movementRemaining`). -/
def combatBounds (c : Combat) : Prop :=
  ∀ cb ∈ c.initiativeOrder, hpBounds cb ∧ 0 ≤ cb.speed

instance (cb : Combatant) : Decidable (hpBounds cb) := by
  unfold hpBounds; infer_instance

instance (c : Combat) : Decidable (combatBounds c) := by
  unfold combatBounds; infer_instance

/-- The landed-turn property of C2: while the combat is active and in
round 1, the combatant holding the current turn is not surprised. -/
def noSurprisedCurrent (c : Combat) : Prop :=
  c.isActive = true → c.round = 1 →
    ∀ cur, getCurrentCombatant c = some cur →
      c.surprisedCombatantIds.contains cur.id = false

/-- Fixture builder for concrete test combatants. -/
def mkCombatant (id : String) (currentHp maxHp tempHp : Int)
    (isPlayer : Bool) (status : CombatantStatus)
    (conditions : List ActiveCondition) : Combatant :=
  { id := id, name := id, type := if isPlayer then .player_character else .enemy,
    initiative := { roll := 10, modifier := 0, total := 10 },
    currentHp := currentHp, maxHp := maxHp, tempHp := tempHp,
    armorClass := 15, speed := 30, conditions := conditions,
    status := status, turnResources := createDefaultTurnResources 30,
    sourceId := id, isPlayer := isPlayer }

/-- Fixture builder for concrete test combats. -/
def mkCombat (order : List Combatant) (round : Int) (idx : Nat)
    (surprised : List String) : Combat :=
  { id := "combat", round := round, initiativeOrder := order,
    currentTurnIndex := idx, surprisedCombatantIds := surprised,
    environmentalEffects := [], isActive := true }

/-- A healthy 45-HP player with no temporary HP. -/
def fixtureHero : Combatant := mkCombatant "hero" 45 45 0 true .active []

def fixtureCombatPlain : Combat := mkCombat [fixtureHero] 1 0 []

/-- A 1-HP player already carrying an `unconscious` condition. -/
def fixtureSleeper : Combatant :=
  mkCombatant "hero" 1 45 0 true .active
    [{ name := "unconscious", source := "sleep spell",
       duration := { type := .untilDispelled, value := none } }]

def fixtureCombatSleeper : Combat := mkCombat [fixtureSleeper] 1 0 []

/-- A second active player for multi-combatant fixtures. -/
def fixtureBruno : Combatant := mkCombatant "bruno" 30 30 0 true .active []

def fixtureCombatPair : Combat := mkCombat [fixtureHero, fixtureBruno] 1 0 []

/-- The pair combat with the hero surprised. -/
def fixtureCombatSurprised : Combat :=
  mkCombat [fixtureHero, fixtureBruno] 1 0 ["hero"]

/-- Character snapshot fixture for `startCombat`. -/
def fixtureChar : Character :=
  { id := "hero", name := "Hero", dexterity := 14, currentHp := 45,
    maxHp := 45, tempHp := 0, armorClass := 16, speed := 30,
    conditions := [] }

/-- A player who has fled at full HP. -/
def fixtureRunaway : Combatant := mkCombatant "runaway" 20 20 0 true .fled []

def fixtureCombatRunaway : Combat := mkCombat [fixtureRunaway] 1 0 []

/-- A poison condition fixture. -/
def fixturePoisoned : ActiveCondition :=
  { name := "poisoned", source := "spider",
    duration := { type := .rounds, value := some 3 } }

/-- The hero after gaining the poison condition. -/
def fixtureHeroPoisoned : Combatant :=
  mkCombatant "hero" 45 45 0 true .active [fixturePoisoned]

def fixtureCombatPoisoned : Combat := mkCombat [fixtureHeroPoisoned] 1 0 []

/-- Monster fixtures for the naming claims. -/
def fixtureGoblin : MonsterStatBlock :=
  { name := "Goblin", dexterity := 10, hitPoints := 7, armorClass := 13,
    walkSpeed := 30 }

def fixtureOrc : MonsterStatBlock :=
  { name := "Orc", dexterity := 10, hitPoints := 15, armorClass := 13,
    walkSpeed := 30 }

/-- The hero downed by overkill damage. -/
def fixtureHeroDowned : Combatant :=
  mkCombatant "hero" 0 45 0 true .active [unconsciousCondition]

/-- The concrete result of 1000 damage on the plain combat. -/
def fixtureDownRes : DamageResult :=
  { combat := mkCombat [fixtureHeroDowned] 1 0 [],
    actualDamage := 1000, wasKnockedOut := true, wasDowned := true }

/-- The hero after a plain 10-damage hit. -/
def fixtureHeroDamaged : Combatant := mkCombatant "hero" 35 45 0 true .active []

/-- The concrete result of 10 damage on the plain combat. -/
def fixtureDamageRes : DamageResult :=
  { combat := mkCombat [fixtureHeroDamaged] 1 0 [],
    actualDamage := 10, wasKnockedOut := false, wasDowned := false }

/-- The runaway after a heal: identical but `active` again. -/
def fixtureRunawayHealed : Combatant := mkCombatant "runaway" 20 20 0 true .active []

/-- The concrete result of healing the runaway by 0. -/
def fixtureHealRes : HealResult :=
  { combat := mkCombat [fixtureRunawayHealed] 1 0 [],
    actualHealing := 0, wasRevived := false }

end AGM

namespace AGM

/-! ## Theorems -/

/-! ### Characterization helpers for damage and healing -/

theorem findTarget_getElem {c : Combat} {tid : String} {i : Nat}
    {target : Combatant} (h : findTarget c tid = some (i, target)) :
    c.initiativeOrder[i]? = some target := by
  unfold findTarget at h
  rcases hf : c.initiativeOrder.findIdx? fun cb => cb.id == tid with _ | j <;>
    rw [hf] at h <;> dsimp only at h
  · simp at h
  · rcases hg : c.initiativeOrder[j]? with _ | cb <;> rw [hg] at h <;>
      simp_all

theorem findTarget_lt {c : Combat} {tid : String} {i : Nat}
    {target : Combatant} (h : findTarget c tid = some (i, target)) :
    i < c.initiativeOrder.length := by
  rcases List.getElem?_eq_some_iff.mp (findTarget_getElem h) with ⟨hl, _⟩
  exact hl

theorem applyDamage_eq {c : Combat} {tid : String} {i : Nat}
    {target : Combatant} (amount : Int) (dt src : String)
    (ht : findTarget c tid = some (i, target)) :
    applyDamage c tid amount dt src =
      some (let remainingDamage := max 0 amount
            let tempApplied :=
              if 0 < target.tempHp then
                if target.tempHp ≤ remainingDamage then
                  (0, remainingDamage - target.tempHp, target.tempHp)
                else (target.tempHp - remainingDamage, 0, remainingDamage)
              else (target.tempHp, remainingDamage, 0)
            let newTempHp := tempApplied.1
            let remainingDamage := tempApplied.2.1
            let actualDamage := tempApplied.2.2 + remainingDamage
            let newCurrentHp := max 0 (target.currentHp - remainingDamage)
            let wasKnockedOut := 0 < target.currentHp ∧ newCurrentHp = 0
            let wasDowned := wasKnockedOut ∧ target.isPlayer = true
            let newStatus :=
              if newCurrentHp = 0 then
                if target.isPlayer then CombatantStatus.active else .defeated
              else target.status
            let newConditions :=
              if wasDowned then target.conditions ++ [unconsciousCondition]
              else target.conditions
            { combat :=
                { c with
                    initiativeOrder := c.initiativeOrder.set i
                      { target with
                          currentHp := newCurrentHp
                          tempHp := newTempHp
                          status := newStatus
                          conditions := newConditions } }
              actualDamage := actualDamage
              wasKnockedOut := decide wasKnockedOut
              wasDowned := decide wasDowned }) := by
  unfold applyDamage
  rw [ht]

/--
C1 counterexample: a 100-damage hit on a combatant with 45 current HP and
0 temporary HP reports `actualDamage = 100`, which exceeds the pre-hit
`tempHp + currentHp = 45`, contradicting the claimed cap.
-/
theorem claim1_counterexample :
    (applyDamage fixtureCombatPlain "hero" 100 "slashing" "hit").map
        (fun r => r.actualDamage) = some 100 ∧
      fixtureHero.tempHp + fixtureHero.currentHp = 45 ∧
      (applyDamage fixtureCombatPlain "hero" 100 "slashing" "hit").map
        (fun r =>
          decide (r.actualDamage ≤ fixtureHero.tempHp + fixtureHero.currentHp)) =
        some false := by
  decide

/--
C1 amended: `applyDamage` reports `actualDamage = max 0 amount` — the
clamped requested amount, not a value capped at the target's
`tempHp + currentHp`. Consequently `actualDamage` equals the HP actually
absorbed across temporary and current HP, and stays within the pre-hit
`tempHp + currentHp`, exactly when the clamped amount does not exceed that
sum; overkill damage is reported in full.
-/
theorem claim1_amended_actualDamage {c : Combat} {tid : String} {i : Nat}
    {target : Combatant} {res : DamageResult} (amount : Int) (dt src : String)
    (ht : findTarget c tid = some (i, target))
    (hres : applyDamage c tid amount dt src = some res) :
    res.actualDamage = max 0 amount ∧
      (0 ≤ target.tempHp → 0 ≤ target.currentHp →
        max 0 amount ≤ target.tempHp + target.currentHp →
        res.actualDamage ≤ target.tempHp + target.currentHp ∧
          ∀ target' , res.combat.initiativeOrder[i]? = some target' →
            (target.tempHp + target.currentHp) -
                (target'.tempHp + target'.currentHp) = res.actualDamage) := by
  rw [applyDamage_eq amount dt src ht] at hres
  replace hres := (Option.some_inj.mp hres).symm
  subst hres
  have hlen : i < c.initiativeOrder.length := findTarget_lt ht
  refine ⟨?_, fun htmp hcur hsum => ⟨?_, fun target' hget' => ?_⟩⟩
  · dsimp only
    split_ifs <;> dsimp only <;> omega
  · dsimp only
    split_ifs <;> dsimp only <;> omega
  · dsimp only at hget'
    rw [List.getElem?_set_self hlen] at hget'
    replace hget' := (Option.some_inj.mp hget').symm
    subst hget'
    dsimp only
    split_ifs <;> dsimp only <;> omega

/--
C1 witness: 10 damage against the 45-HP hero reports `actualDamage = 10`,
absorbed entirely and within the pre-hit HP total.
-/
theorem claim1_witness :
    fixtureDamageRes.actualDamage = max 0 10 ∧
      fixtureDamageRes.actualDamage ≤
        fixtureHero.tempHp + fixtureHero.currentHp ∧
      (fixtureHero.tempHp + fixtureHero.currentHp) -
          (fixtureHeroDamaged.tempHp + fixtureHeroDamaged.currentHp) =
        fixtureDamageRes.actualDamage := by
  have h := @claim1_amended_actualDamage fixtureCombatPlain "hero" 0 fixtureHero
    fixtureDamageRes 10 "slashing" "sword" (by decide) (by decide)
  exact ⟨h.1, (h.2 (by decide) (by decide) (by decide)).1,
    (h.2 (by decide) (by decide) (by decide)).2 fixtureHeroDamaged (by decide)⟩

/-! ### Condition-name invariant (C3) -/

theorem findTarget_mem {c : Combat} {tid : String} {i : Nat}
    {target : Combatant} (h : findTarget c tid = some (i, target)) :
    target ∈ c.initiativeOrder := by
  rcases List.getElem?_eq_some_iff.mp (findTarget_getElem h) with ⟨hl, he⟩
  exact he ▸ List.getElem_mem hl

theorem forall_mem_set {α : Type} {P : α → Prop} {l : List α} {i : Nat}
    {x : α} (hl : ∀ a ∈ l, P a) (hx : P x) : ∀ a ∈ l.set i x, P a := by
  intro a ha
  rcases List.mem_or_eq_of_mem_set ha with h | h
  · exact hl a h
  · exact h ▸ hx

theorem set_self_of_getElem? {α : Type} :
    ∀ {l : List α} {i : Nat} {x : α}, l[i]? = some x → l.set i x = l := by
  intro l
  induction l with
  | nil => intro i x h; simp at h
  | cons a t ih =>
    intro i x h
    cases i with
    | zero =>
      simp only [List.getElem?_cons_zero, Option.some_inj] at h
      rw [h, List.set_cons_zero]
    | succ j =>
      simp only [List.getElem?_cons_succ] at h
      rw [List.set_cons_succ, ih h]

theorem tickCondition_name (cd : ActiveCondition) :
    (tickCondition cd).name = cd.name := by
  unfold tickCondition; split <;> rfl

theorem condNames_endOfRound_sublist (cb : Combatant) :
    List.Sublist (condNames (endOfRoundCombatant cb)) (condNames cb) := by
  unfold condNames endOfRoundCombatant
  dsimp only
  have h2 := (@List.filter_sublist _ keepCondition
    (cb.conditions.map tickCondition)).map ActiveCondition.name
  rw [List.map_map,
    show ActiveCondition.name ∘ tickCondition = ActiveCondition.name from
      funext tickCondition_name] at h2
  exact h2

/-- `processEndOfRound` preserves the per-combatant condition-name
invariant. -/
theorem condNamesNodup_processEndOfRound {c : Combat} (h : condNamesNodup c) :
    condNamesNodup (processEndOfRound c) := by
  intro cb hcb
  unfold processEndOfRound at hcb
  dsimp only at hcb
  rcases List.mem_map.mp hcb with ⟨cb₀, hcb₀, rfl⟩
  exact List.Nodup.sublist (condNames_endOfRound_sublist cb₀) (h cb₀ hcb₀)

/-- `applyHealing` preserves the condition-name invariant. -/
theorem condNamesNodup_applyHealing {c : Combat} {tid : String} {amount : Int}
    {src : String} {res : HealResult} (h : condNamesNodup c)
    (hres : applyHealing c tid amount src = some res) :
    condNamesNodup res.combat := by
  unfold applyHealing at hres
  rcases hft : findTarget c tid with _ | p <;> rw [hft] at hres
  · simp at hres
  · rcases p with ⟨i, target⟩
    replace hres := (Option.some_inj.mp hres).symm
    subst hres
    dsimp only
    have hnod := h target (findTarget_mem hft)
    refine forall_mem_set h ?_
    unfold condNames at hnod ⊢
    dsimp only
    split
    · exact List.Nodup.sublist ((List.filter_sublist _).map _) hnod
    · exact hnod

/-- `removeCondition` preserves the condition-name invariant. -/
theorem condNamesNodup_removeCondition {c : Combat} {tid nm : String}
    {c' : Combat} (h : condNamesNodup c)
    (hres : removeCondition c tid nm = some c') : condNamesNodup c' := by
  unfold removeCondition at hres
  rcases hft : findTarget c tid with _ | p <;> rw [hft] at hres
  · simp at hres
  · rcases p with ⟨i, target⟩
    replace hres := (Option.some_inj.mp hres).symm
    subst hres
    have hnod := h target (findTarget_mem hft)
    refine forall_mem_set h ?_
    unfold condNames at hnod ⊢
    dsimp only
    exact List.Nodup.sublist ((List.filter_sublist _).map _) hnod

/-- `addCondition` preserves the condition-name invariant unconditionally. -/
theorem condNamesNodup_addCondition {c : Combat} {tid : String}
    {cond : ActiveCondition} {c' : Combat} (h : condNamesNodup c)
    (hres : addCondition c tid cond = some c') : condNamesNodup c' := by
  unfold addCondition at hres
  rcases hft : findTarget c tid with _ | ⟨i, target⟩ <;> rw [hft] at hres <;>
    dsimp only at hres
  · simp at hres
  · have hnod := h target (findTarget_mem hft)
    split at hres
    · rename_i hany
      rcases hfi : target.conditions.findIdx? (fun cd => cd.name == cond.name)
        with _ | j <;> rw [hfi] at hres <;> dsimp only at hres
      · exact (Option.some_inj.mp hres) ▸ h
      · rcases hg : target.conditions[j]? with _ | existing <;>
          rw [hg] at hres <;> dsimp only at hres
        · exact (Option.some_inj.mp hres) ▸ h
        · split at hres
          · replace hres := (Option.some_inj.mp hres).symm
            subst hres
            refine forall_mem_set h ?_
            have hname : existing.name = cond.name := by
              rcases List.findIdx?_eq_some_iff_getElem.mp hfi with ⟨hlt, hp, _⟩
              have he : target.conditions[j] = existing := by
                rw [List.getElem?_eq_getElem hlt] at hg
                exact Option.some_inj.mp hg
              rw [he] at hp
              exact eq_of_beq hp
            unfold condNames at hnod ⊢
            dsimp only
            rw [List.map_set, ← hname,
              set_self_of_getElem? (by rw [List.getElem?_map, hg]; rfl)]
            exact hnod
          · exact (Option.some_inj.mp hres) ▸ h
    · rename_i hany
      replace hres := (Option.some_inj.mp hres).symm
      subst hres
      refine forall_mem_set h ?_
      have hnotmem : cond.name ∉ target.conditions.map ActiveCondition.name := by
        rw [Bool.not_eq_true, List.any_eq_false] at hany
        intro hmem
        rcases List.mem_map.mp hmem with ⟨cd, hcd, hcdname⟩
        exact hany cd hcd (by rw [beq_iff_eq, hcdname])
      unfold condNames at hnod ⊢
      dsimp only
      rw [List.map_append]
      exact List.Nodup.append hnod (List.nodup_singleton _)
        (by intro a ha hb
            rcases List.mem_singleton.mp hb with rfl
            exact hnotmem ha)

/-- `applyDamage` preserves the condition-name invariant provided that when
the hit downs a player the target does not already carry an `unconscious`
condition. -/
theorem nodup_names_if_downed {conds : List ActiveCondition} (Q : Prop)
    [Decidable Q] (hnod : (conds.map ActiveCondition.name).Nodup)
    (hside : Q → "unconscious" ∉ conds.map ActiveCondition.name) :
    (((if Q then conds ++ [unconsciousCondition] else conds)).map
      ActiveCondition.name).Nodup := by
  split
  · rename_i hq
    rw [List.map_append]
    refine List.Nodup.append hnod (List.nodup_singleton _) ?_
    intro a ha hb
    rcases List.mem_singleton.mp hb with rfl
    exact (hside hq) ha
  · exact hnod

theorem condNamesNodup_applyDamage {c : Combat} {tid : String} {amount : Int}
    {dt src : String} {i : Nat} {target : Combatant} {res : DamageResult}
    (h : condNamesNodup c) (hft : findTarget c tid = some (i, target))
    (hres : applyDamage c tid amount dt src = some res)
    (hside : res.wasDowned = true →
      "unconscious" ∉ target.conditions.map ActiveCondition.name) :
    condNamesNodup res.combat := by
  rw [applyDamage_eq amount dt src hft] at hres
  replace hres := (Option.some_inj.mp hres).symm
  subst hres
  dsimp only at hside ⊢
  have hnod := h target (findTarget_mem hft)
  refine forall_mem_set h ?_
  unfold condNames
  dsimp only
  exact nodup_names_if_downed _ hnod
    (fun hq => hside (decide_eq_true hq))

/--
C3 counterexample: a player at 1 HP who already carries an `unconscious`
condition (e.g. from a sleep effect) and takes 1 damage ends with two
conditions named `unconscious`, violating the claimed invariant under
`applyDamage`.
-/
theorem claim3_counterexample :
    (applyDamage fixtureCombatSleeper "hero" 1 "bludgeoning" "club").map
        (fun r => r.combat.initiativeOrder.map
          (fun cb => (condNames cb, decide (condNames cb).Nodup))) =
      some [(["unconscious", "unconscious"], false)] := by
  decide

/--
C3 amended: the at-most-one-condition-per-name invariant is preserved by
`addCondition`, `applyHealing`, `removeCondition` and `processEndOfRound`
unconditionally, and by `applyDamage` provided that, when the hit downs a
player, the target does not already carry a condition named `unconscious`
(without that proviso `applyDamage` pushes a duplicate).
-/
theorem claim3_amended_condition_invariant (c : Combat)
    (h : condNamesNodup c) :
    (∀ tid cond c', addCondition c tid cond = some c' → condNamesNodup c') ∧
      (∀ tid amount dt src i target res,
        findTarget c tid = some (i, target) →
        applyDamage c tid amount dt src = some res →
        (res.wasDowned = true →
          "unconscious" ∉ target.conditions.map ActiveCondition.name) →
        condNamesNodup res.combat) ∧
      (∀ tid amount src res, applyHealing c tid amount src = some res →
        condNamesNodup res.combat) ∧
      (∀ tid nm c', removeCondition c tid nm = some c' → condNamesNodup c') ∧
      condNamesNodup (processEndOfRound c) :=
  ⟨fun _ _ _ hres => condNamesNodup_addCondition h hres,
   fun _ _ _ _ _ _ _ hft hres hside =>
     condNamesNodup_applyDamage h hft hres hside,
   fun _ _ _ _ hres => condNamesNodup_applyHealing h hres,
   fun _ _ _ hres => condNamesNodup_removeCondition h hres,
   condNamesNodup_processEndOfRound h⟩

/--
C3 witness: adding a poison condition to the clean hero yields a combat
that still satisfies the invariant.
-/
theorem claim3_witness : condNamesNodup fixtureCombatPoisoned :=
  (claim3_amended_condition_invariant fixtureCombatPlain (by decide)).1
    "hero" fixturePoisoned fixtureCombatPoisoned (by decide)

/-! ### Enemy display names (C4) -/

theorem enemyEntriesFrom_name_getElem? (ms : List MonsterStatBlock) :
    ∀ (start : Nat) (rest : List MonsterStatBlock) (i : Nat),
      ((enemyEntriesFrom ms start rest).map InitCombatant.name)[i]? =
        rest[i]?.map (fun m => enemyEntryName ms (start + i) m) := by
  intro start rest
  induction rest generalizing start with
  | nil => intro i; simp [enemyEntriesFrom]
  | cons m rest ih =>
    intro i
    cases i with
    | zero => simp [enemyEntriesFrom]
    | succ i =>
      rw [show enemyEntriesFrom ms start (m :: rest) =
        { id := monsterSlug m.name ++ "_" ++ toString (start + 1),
          name := enemyEntryName ms start m,
          dexterityModifier := getAbilityModifier m.dexterity,
          source := .mon m, type := .enemy } ::
          enemyEntriesFrom ms (start + 1) rest from rfl]
      simp only [List.map_cons, List.getElem?_cons_succ, ih (start + 1),
        List.getElem?_cons_succ]
      have : start + 1 + i = start + (i + 1) := by omega
      rw [this]

/--
C4 counterexample: for the enemy list [Goblin, Orc, Goblin] the two
same-named Goblins are displayed as "Goblin 1" and "Goblin 3" (the suffix
is the 1-based position in the whole enemy list), not "Goblin 1" and
"Goblin 2" as the claim's 1-based ordinal among same-named instances
requires.
-/
theorem claim4_counterexample :
    (startCombat [] [fixtureGoblin, fixtureOrc, fixtureGoblin] [] []
        (fun _ => 0)).initiativeOrder.map Combatant.name =
      ["Goblin 1", "Orc", "Goblin 3"] ∧
    "Goblin 2" ∉
      (startCombat [] [fixtureGoblin, fixtureOrc, fixtureGoblin] [] []
        (fun _ => 0)).initiativeOrder.map Combatant.name := by
  decide

/--
C4 amended: the i-th enemy monster (0-based position i in the full enemy
list) is displayed with the suffix `i + 1` — its 1-based position in the
whole list, not its ordinal among same-named instances — whenever the list
has more than one entry and the monster's name occurs more than once in
it; otherwise the name is unsuffixed.
-/
theorem claim4_amended_enemy_names (monsters : List MonsterStatBlock)
    (i : Nat) :
    ((enemyEntries monsters).map InitCombatant.name)[i]? =
      monsters[i]?.map (fun m =>
        if 1 < monsters.length ∧
            1 < (monsters.filter fun m' => m'.name == m.name).length then
          m.name ++ " " ++ toString (i + 1)
        else m.name) := by
  unfold enemyEntries
  rw [enemyEntriesFrom_name_getElem? monsters 0 monsters i]
  unfold enemyEntryName
  rw [show (0 : Nat) + i = i from by omega]

/-! ### Initiative rolling (C8) -/

theorem rollDie_bounds (w : Nat) : 1 ≤ rollDie 20 w ∧ rollDie 20 w ≤ 20 := by
  unfold rollDie randomInt
  dsimp only
  have hlo := Int.emod_nonneg (w : Int) (by norm_num : (20 : Int) - 1 + 1 ≠ 0)
  have hhi := Int.emod_lt_of_pos (w : Int)
    (by norm_num : (0 : Int) < 20 - 1 + 1)
  omega

theorem initRolls_getElem? (entries : List InitEntry) (words : Nat → Nat) :
    ∀ (start i : Nat),
      (initRolls start entries words)[i]? = entries[i]?.map (fun c =>
        { combatantId := c.id, combatantName := c.name,
          roll := rollDie 20 (words (start + i)),
          modifier := c.dexterityModifier,
          total := rollDie 20 (words (start + i)) + c.dexterityModifier }) := by
  induction entries with
  | nil => intro start i; simp [initRolls]
  | cons c rest ih =>
    intro start i
    cases i with
    | zero => simp [initRolls]
    | succ i =>
      rw [show initRolls start (c :: rest) words =
        { combatantId := c.id, combatantName := c.name,
          roll := rollDie 20 (words start), modifier := c.dexterityModifier,
          total := rollDie 20 (words start) + c.dexterityModifier } ::
          initRolls (start + 1) rest words from rfl]
      simp only [List.getElem?_cons_succ, ih (start + 1) i]
      rw [show start + 1 + i = start + (i + 1) from by omega]

theorem initRolls_mem (entries : List InitEntry) (words : Nat → Nat) :
    ∀ (start : Nat), ∀ r ∈ initRolls start entries words,
      1 ≤ r.roll ∧ r.roll ≤ 20 ∧ r.total = r.roll + r.modifier := by
  induction entries with
  | nil => intro start r hr; simp [initRolls] at hr
  | cons c rest ih =>
    intro start r hr
    rw [show initRolls start (c :: rest) words =
      { combatantId := c.id, combatantName := c.name,
        roll := rollDie 20 (words start), modifier := c.dexterityModifier,
        total := rollDie 20 (words start) + c.dexterityModifier } ::
        initRolls (start + 1) rest words from rfl] at hr
    rcases List.mem_cons.mp hr with rfl | hr
    · exact ⟨(rollDie_bounds (words start)).1,
        (rollDie_bounds (words start)).2, rfl⟩
    · exact ih (start + 1) r hr

theorem pairwise_filter_of_key {α : Type} {p : α → Bool} {R : α → α → Prop}
    (hpq : ∀ a b, p a = true → p b = true → R a b) :
    ∀ l : List α, (l.filter p).Pairwise R := by
  intro l
  induction l with
  | nil => simp
  | cons a t ih =>
    by_cases h : p a
    · rw [List.filter_cons_of_pos h]
      refine List.Pairwise.cons ?_ ih
      intro b hb
      exact hpq a b h (List.mem_filter.mp hb).2
    · rw [List.filter_cons_of_neg h]
      exact ih

/--
C8: `rollInitiative` returns one result per input (a permutation of the
positionally built roll list), each with a d20 roll in [1, 20] and
`total = roll + modifier`; the output is sorted descending by total with
ties broken by descending modifier, and entries with equal total and
modifier keep their input order (stability, phrased as filter-equality on
every key).
-/
theorem claim8_rollInitiative (entries : List InitEntry) (words : Nat → Nat) :
    (rollInitiative entries words).length = entries.length ∧
      List.Perm (rollInitiative entries words) (initRolls 0 entries words) ∧
      (∀ i : Nat, (initRolls 0 entries words)[i]? = entries[i]?.map (fun c =>
        { combatantId := c.id, combatantName := c.name,
          roll := rollDie 20 (words i), modifier := c.dexterityModifier,
          total := rollDie 20 (words i) + c.dexterityModifier })) ∧
      (∀ r ∈ rollInitiative entries words,
        1 ≤ r.roll ∧ r.roll ≤ 20 ∧ r.total = r.roll + r.modifier) ∧
      List.Pairwise (fun a b => b.total < a.total ∨
        (a.total = b.total ∧ b.modifier ≤ a.modifier))
        (rollInitiative entries words) ∧
      (∀ t m : Int, (rollInitiative entries words).filter
          (fun r => r.total == t && r.modifier == m) =
        (initRolls 0 entries words).filter
          (fun r => r.total == t && r.modifier == m)) := by
  have hperm : List.Perm (rollInitiative entries words)
      (initRolls 0 entries words) :=
    List.perm_insertionSort initLE (initRolls 0 entries words)
  refine ⟨?_, hperm, ?_, ?_, ?_, ?_⟩
  · rw [hperm.length_eq]
    have : ∀ (start : Nat) (l : List InitEntry),
        (initRolls start l words).length = l.length := by
      intro start l
      induction l generalizing start with
      | nil => rfl
      | cons c rest ih =>
        rw [show initRolls start (c :: rest) words =
          { combatantId := c.id, combatantName := c.name,
            roll := rollDie 20 (words start), modifier := c.dexterityModifier,
            total := rollDie 20 (words start) + c.dexterityModifier } ::
            initRolls (start + 1) rest words from rfl]
        simp [ih (start + 1)]
    exact this 0 entries
  · intro i
    rw [initRolls_getElem? entries words 0 i]
    simp only [Nat.zero_add]
  · intro r hr
    exact initRolls_mem entries words 0 r (hperm.mem_iff.mp hr)
  · exact List.sorted_insertionSort initLE (initRolls 0 entries words)
  · intro t m
    set p : InitiativeResult → Bool :=
      fun r => r.total == t && r.modifier == m with hp
    set l : List InitiativeResult := initRolls 0 entries words with hl
    have hpair : (l.filter p).Pairwise initLE := by
      refine pairwise_filter_of_key ?_ l
      intro a b ha hb
      rw [hp] at ha hb
      simp only [Bool.and_eq_true, beq_iff_eq] at ha hb
      right
      exact ⟨by rw [ha.1, hb.1], by rw [ha.2, hb.2]⟩
    have hsub : List.Sublist (l.filter p) (rollInitiative entries words) :=
      List.sublist_insertionSort hpair (List.filter_sublist l)
    have hsub2 : List.Sublist ((l.filter p).filter p)
        ((rollInitiative entries words).filter p) := hsub.filter p
    rw [List.filter_eq_self.mpr
      (fun a ha => (List.mem_filter.mp ha).2)] at hsub2
    have hlen : ((rollInitiative entries words).filter p).length =
        (l.filter p).length := (hperm.filter p).length_eq
    exact (hsub2.eq_of_length (by rw [hlen])).symm

/-! ### Turn progression machinery (C2, C6) -/

theorem processEndOfRound_round (c : Combat) :
    (processEndOfRound c).round = c.round + 1 := rfl

theorem processEndOfRound_isActive (c : Combat) :
    (processEndOfRound c).isActive = c.isActive := rfl

theorem processEndOfRound_surprised (c : Combat) :
    (processEndOfRound c).surprisedCombatantIds = c.surprisedCombatantIds :=
  rfl

theorem processEndOfRound_length (c : Combat) :
    (processEndOfRound c).initiativeOrder.length =
      c.initiativeOrder.length := by
  unfold processEndOfRound
  exact List.length_map _ _

theorem endOfRoundCombatant_status (cb : Combatant) :
    (endOfRoundCombatant cb).status = cb.status := rfl

theorem processEndOfRound_allActive {c : Combat}
    (h : ∀ cb ∈ c.initiativeOrder, cb.status = CombatantStatus.active) :
    ∀ cb ∈ (processEndOfRound c).initiativeOrder,
      cb.status = CombatantStatus.active := by
  intro cb hcb
  unfold processEndOfRound at hcb
  dsimp only at hcb
  rcases List.mem_map.mp hcb with ⟨cb₀, hcb₀, rfl⟩
  rw [endOfRoundCombatant_status]
  exact h cb₀ hcb₀

theorem nextTurn_eq_aux (c : Combat) :
    nextTurn c = nextTurnAux (c.initiativeOrder.length + 1 + 1) c := rfl

theorem badAt_false_of_active {u : Combat} {j : Nat}
    (h : ∀ cb ∈ u.initiativeOrder, cb.status = CombatantStatus.active)
    (hj : j < u.initiativeOrder.length) : badAt u j = false := by
  unfold badAt
  rcases hg : u.initiativeOrder[j]? with _ | cb
  · exact absurd (List.getElem?_eq_none_iff.mp hg) (by omega)
  · dsimp only
    rw [h cb (by
      rcases List.getElem?_eq_some_iff.mp hg with ⟨hl, he⟩
      exact he ▸ List.getElem_mem hl)]
    rfl

theorem loopGo_of_exit (n r idx : Nat) (u : Combat)
    (h : badAt (loopStep n idx u).2 (loopStep n idx u).1 = false) :
    loopGo n r idx u = loopStep n idx u := by
  cases r with
  | zero => rfl
  | succ r =>
    unfold loopGo
    dsimp only
    rw [h]
    simp

/-- One `nextTurn` step on an active combat whose combatants are all
active and which has no surprise skip pending: the index advances by one
modulo the order length, the round increments exactly on wrap-around, and
all the structural invariants are preserved. -/
theorem nextTurn_step (c : Combat)
    (hact : c.isActive = true)
    (hall : ∀ cb ∈ c.initiativeOrder, cb.status = CombatantStatus.active)
    (hsur : c.surprisedCombatantIds = [] ∨ 1 < c.round)
    (hidx : c.currentTurnIndex < c.initiativeOrder.length) :
    (nextTurn c).currentTurnIndex =
        (c.currentTurnIndex + 1) % c.initiativeOrder.length ∧
      (nextTurn c).round =
        (if (c.currentTurnIndex + 1) % c.initiativeOrder.length = 0 then
          c.round + 1 else c.round) ∧
      (nextTurn c).isActive = true ∧
      (∀ cb ∈ (nextTurn c).initiativeOrder,
        cb.status = CombatantStatus.active) ∧
      (nextTurn c).initiativeOrder.length = c.initiativeOrder.length ∧
      (nextTurn c).surprisedCombatantIds = c.surprisedCombatantIds := by
  have hn : 0 < c.initiativeOrder.length := by omega
  set n := c.initiativeOrder.length with hnd
  set j := (c.currentTurnIndex + 1) % n with hjd
  have hjn : j < n := Nat.mod_lt _ hn
  set u : Combat := if j = 0 then processEndOfRound c else c with hud
  have hulen : u.initiativeOrder.length = n := by
    rw [hud]
    split
    · rw [processEndOfRound_length]
    · rfl
  have huact : ∀ cb ∈ u.initiativeOrder, cb.status = .active := by
    rw [hud]
    split
    · exact processEndOfRound_allActive hall
    · exact hall
  have huIsActive : u.isActive = true := by
    rw [hud]; split
    · rw [processEndOfRound_isActive]; exact hact
    · exact hact
  have huSurp : u.surprisedCombatantIds = c.surprisedCombatantIds := by
    rw [hud]; split
    · rw [processEndOfRound_surprised]
    · rfl
  have huRound : u.round = (if j = 0 then c.round + 1 else c.round) := by
    rw [hud]
    split
    · exact processEndOfRound_round c
    · rfl
  have hstep : loopStep n c.currentTurnIndex c = (j, u) := by
    rw [loopStep, hud, hjd]
  have hbad : badAt (loopStep n c.currentTurnIndex c).2
      (loopStep n c.currentTurnIndex c).1 = false := by
    rw [hstep]
    exact badAt_false_of_active huact (by rw [hulen]; exact hjn)
  obtain ⟨cur, hget⟩ : ∃ cur, u.initiativeOrder[j]? = some cur := by
    rcases hg : u.initiativeOrder[j]? with _ | cb
    · exact absurd (List.getElem?_eq_none_iff.mp hg) (by omega)
    · exact ⟨cb, rfl⟩
  have hcurmem : cur ∈ u.initiativeOrder := by
    rcases List.getElem?_eq_some_iff.mp hget with ⟨hl, he⟩
    exact he ▸ List.getElem_mem hl
  have hguard : (u.round == 1 && u.surprisedCombatantIds.contains cur.id) =
      false := by
    rcases hsur with hs | hs
    · rw [huSurp, hs]
      simp [List.contains]
    · have : (u.round == 1) = false := by
        rw [huRound]
        split <;> simp <;> omega
      rw [this]
      simp
  have hG : loopGo n (n - 1) c.currentTurnIndex c = (j, u) := by
    rw [loopGo_of_exit n (n - 1) c.currentTurnIndex c hbad]
    exact hstep
  have hland : landCombat j u =
      ({ u with
          round := u.round
          currentTurnIndex := j
          initiativeOrder := u.initiativeOrder.set j
            { cur with
                turnResources := createDefaultTurnResources cur.speed } },
       false) := by
    unfold landCombat
    rw [hget]
    dsimp only
    rw [hguard]
  rw [nextTurn_eq_aux]
  unfold nextTurnAux
  rw [if_neg (by simp [hact])]
  rw [if_neg (by
    rw [List.filter_eq_self.mpr (fun cb hcb => by
      rw [hall cb hcb]; rfl)]
    omega)]
  rw [← hnd, hG]
  dsimp only
  rw [hland]
  dsimp only
  rw [if_neg Bool.false_ne_true]
  refine ⟨rfl, huRound, huIsActive, ?_, ?_, huSurp⟩
  · intro cb hcb
    refine forall_mem_set huact ?_ cb hcb
    exact huact cur hcurmem
  · rw [List.length_set]
    exact hulen

/-- Any property of combats preserved by `processEndOfRound` is preserved
by the search loop of `nextTurn`. -/
theorem loopGo_preserves (P : Combat → Prop)
    (hP : ∀ u, P u → P (processEndOfRound u)) (n : Nat) :
    ∀ (r idx : Nat) (u : Combat), P u → P (loopGo n r idx u).2 := by
  intro r
  induction r with
  | zero =>
    intro idx u hu
    unfold loopGo loopStep
    dsimp only
    split
    · exact hP u hu
    · exact hu
  | succ r ih =>
    intro idx u hu
    unfold loopGo
    dsimp only
    have hstep : P (loopStep n idx u).2 := by
      unfold loopStep
      dsimp only
      split
      · exact hP u hu
      · exact hu
    split
    · exact ih _ _ hstep
    · exact hstep

theorem loopGo_fst_lt (n : Nat) (hn : 0 < n) :
    ∀ (r idx : Nat) (u : Combat), (loopGo n r idx u).1 < n := by
  intro r
  induction r with
  | zero =>
    intro idx u
    unfold loopGo loopStep
    exact Nat.mod_lt _ hn
  | succ r ih =>
    intro idx u
    unfold loopGo
    dsimp only
    split
    · exact ih _ _
    · exact Nat.mod_lt _ hn

theorem loopGo_length (n : Nat) :
    ∀ (r idx : Nat) (u : Combat),
      (loopGo n r idx u).2.initiativeOrder.length =
        u.initiativeOrder.length := by
  intro r idx u
  have := loopGo_preserves
    (fun v => v.initiativeOrder.length = u.initiativeOrder.length)
    (fun v hv => by
      show (processEndOfRound v).initiativeOrder.length =
        u.initiativeOrder.length
      rw [processEndOfRound_length]
      exact hv) n r idx u rfl
  exact this

/-- Either the search loop ran end-of-round processing at least once (the
round strictly grew), or it never wrapped: the combat is untouched and the
exit index is strictly beyond the start index. -/
theorem loopGo_wrap_or_advance (n : Nat) :
    ∀ (r idx : Nat) (u : Combat), idx < n →
      u.round + 1 ≤ (loopGo n r idx u).2.round ∨
        ((loopGo n r idx u).2 = u ∧ idx < (loopGo n r idx u).1) := by
  intro r
  induction r with
  | zero =>
    intro idx u hidx
    unfold loopGo loopStep
    dsimp only
    by_cases hj : (idx + 1) % n = 0
    · rw [if_pos hj]
      left
      rw [processEndOfRound_round]
    · rw [if_neg hj]
      right
      refine ⟨rfl, ?_⟩
      rcases Nat.lt_or_ge (idx + 1) n with hlt | hge
      · rw [Nat.mod_eq_of_lt hlt]
        omega
      · have heq : idx + 1 = n := by omega
        rw [heq, Nat.mod_self] at hj
        exact absurd rfl hj
  | succ r ih =>
    intro idx u hidx
    unfold loopGo loopStep
    dsimp only
    have hmodlt : (idx + 1) % n < n := Nat.mod_lt _ (by omega)
    by_cases hj : (idx + 1) % n = 0
    · rw [if_pos hj]
      split
      · rcases ih ((idx + 1) % n) (processEndOfRound u) hmodlt with h | ⟨he, _⟩
        · left
          rw [processEndOfRound_round] at h
          omega
        · left
          rw [he, processEndOfRound_round]
      · left
        rw [processEndOfRound_round]
    · rw [if_neg hj]
      have hadv : idx < (idx + 1) % n := by
        rcases Nat.lt_or_ge (idx + 1) n with hlt | hge
        · rw [Nat.mod_eq_of_lt hlt]
          omega
        · have heq : idx + 1 = n := by omega
          rw [heq, Nat.mod_self] at hj
          exact absurd rfl hj
      split
      · rcases ih ((idx + 1) % n) u hmodlt with h | ⟨he, hlt2⟩
        · left
          exact h
        · right
          exact ⟨he, by omega⟩
      · right
        exact ⟨rfl, hadv⟩

/-- Core induction for C2: with enough fuel relative to the start index,
every combat `nextTurnAux` returns satisfies `noSurprisedCurrent` —
whenever the result is active and still in round 1, the landed combatant
is not in the surprise set. -/
theorem nextTurnAux_no_surprised :
    ∀ (fuel : Nat) (c : Combat), 1 ≤ c.round →
      c.currentTurnIndex < c.initiativeOrder.length →
      c.initiativeOrder.length ≤ fuel + c.currentTurnIndex →
      noSurprisedCurrent (nextTurnAux fuel c) := by
  intro fuel
  induction fuel with
  | zero =>
    intro c _ hidx hfuel
    omega
  | succ fuel ih =>
    intro c hround hidx hfuel
    have hn : 0 < c.initiativeOrder.length := by omega
    unfold nextTurnAux
    split
    · rename_i hinact
      intro ha _ _ _
      exact absurd (hinact ▸ ha) (by simp)
    · split
      · intro ha _ _ _
        simp at ha
      · have hjlt : (loopGo c.initiativeOrder.length
            (c.initiativeOrder.length - 1) c.currentTurnIndex c).1 <
            c.initiativeOrder.length :=
          loopGo_fst_lt _ hn _ _ _
        have hulen : (loopGo c.initiativeOrder.length
            (c.initiativeOrder.length - 1) c.currentTurnIndex
            c).2.initiativeOrder.length = c.initiativeOrder.length :=
          loopGo_length _ _ _ _
        have hwa := loopGo_wrap_or_advance c.initiativeOrder.length
          (c.initiativeOrder.length - 1) c.currentTurnIndex c hidx
        unfold landCombat
        rcases hg : (loopGo c.initiativeOrder.length
            (c.initiativeOrder.length - 1) c.currentTurnIndex
            c).2.initiativeOrder[(loopGo c.initiativeOrder.length
              (c.initiativeOrder.length - 1) c.currentTurnIndex c).1]?
          with _ | cur <;> dsimp only
        · rw [if_neg Bool.false_ne_true]
          intro _ _ cur' hcur'
          unfold getCurrentCombatant at hcur'
          split at hcur'
          · exact absurd hcur' (by simp)
          · dsimp only at hcur'
            rw [hg] at hcur'
            exact absurd hcur' (by simp)
        · by_cases hguard : ((loopGo c.initiativeOrder.length
              (c.initiativeOrder.length - 1) c.currentTurnIndex
              c).2.round == 1 &&
              (loopGo c.initiativeOrder.length
                (c.initiativeOrder.length - 1) c.currentTurnIndex
                c).2.surprisedCombatantIds.contains cur.id) = true
          · rw [if_pos hguard]
            have huu1 : (loopGo c.initiativeOrder.length
                (c.initiativeOrder.length - 1) c.currentTurnIndex
                c).2.round = 1 :=
              eq_of_beq (Bool.and_eq_true_iff.mp hguard).1
            rcases hwa with hW | ⟨hequ, hlt⟩
            · rw [huu1] at hW
              omega
            · refine ih _ ?_ ?_ ?_
              · dsimp only
                rw [huu1]
              · dsimp only
                rw [List.length_set, hulen]
                exact hjlt
              · dsimp only
                rw [List.length_set, hulen]
                omega
          · rw [if_neg hguard]
            intro _ hr cur' hcur'
            have huu1 : ((loopGo c.initiativeOrder.length
                (c.initiativeOrder.length - 1) c.currentTurnIndex
                c).2.round == 1) = true := by
              dsimp only at hr
              rw [hr]
              rfl
            unfold getCurrentCombatant at hcur'
            split at hcur'
            · exact absurd hcur' (by simp)
            · dsimp only at hcur'
              rw [List.getElem?_set_self (by rw [hulen]; exact hjlt)]
                at hcur'
              replace hcur' := (Option.some_inj.mp hcur').symm
              subst hcur'
              dsimp only
              cases hc : (loopGo c.initiativeOrder.length
                  (c.initiativeOrder.length - 1) c.currentTurnIndex
                  c).2.surprisedCombatantIds.contains cur.id
              · rfl
              · exact absurd (Bool.and_eq_true_iff.mpr ⟨huu1, hc⟩) hguard

/--
C2 counterexample: `startCombat` with a single surprised character
returns a round-1 active combat whose current combatant (reported by
`getCurrentCombatant`) is that surprised character — the surprised
combatant holds the turn in the very state `startCombat` returns.
-/
theorem claim2_counterexample :
    (getCurrentCombatant
        (startCombat [fixtureChar] [] [] ["hero"] (fun _ => 0))).map
        Combatant.id = some "hero" ∧
      "hero" ∈ (startCombat [fixtureChar] [] [] ["hero"]
        (fun _ => 0)).surprisedCombatantIds ∧
      (startCombat [fixtureChar] [] [] ["hero"] (fun _ => 0)).round = 1 ∧
      (startCombat [fixtureChar] [] [] ["hero"] (fun _ => 0)).isActive =
        true := by
  decide

/--
C2 amended: every state returned by `nextTurn` (from a state with a valid
`currentTurnIndex` and round ≥ 1) satisfies the property: while the combat
is active and the round is 1, the combatant at `currentTurnIndex` is not
in `surprisedCombatantIds`. The state `startCombat` itself returns can
violate the property when the initiative winner is surprised.
-/
theorem claim2_amended_nextTurn_no_surprised (c : Combat)
    (hround : 1 ≤ c.round)
    (hidx : c.currentTurnIndex < c.initiativeOrder.length) :
    noSurprisedCurrent (nextTurn c) :=
  nextTurnAux_no_surprised (c.initiativeOrder.length + 2) c hround hidx
    (by omega)

/--
C2 witness: advancing the surprised-hero pair combat lands on the
non-surprised Bruno.
-/
theorem claim2_witness :
    (nextTurn fixtureCombatSurprised).surprisedCombatantIds.contains
      fixtureBruno.id = false :=
  claim2_amended_nextTurn_no_surprised fixtureCombatSurprised (by decide)
    (by decide) (by decide) (by decide) fixtureBruno (by decide)

/-- Iterating `nextTurn` over an all-active, surprise-free combat walks
the index up one position per call, incrementing the round exactly on the
wrap-around step. -/
theorem nextTurn_iterate (c : Combat)
    (hact : c.isActive = true)
    (hall : ∀ cb ∈ c.initiativeOrder, cb.status = CombatantStatus.active)
    (hsur : c.surprisedCombatantIds = [] ∨ 1 < c.round)
    (hidx0 : c.currentTurnIndex = 0)
    (hn : 0 < c.initiativeOrder.length) :
    ∀ k, k ≤ c.initiativeOrder.length →
      (nextTurn^[k] c).isActive = true ∧
        (∀ cb ∈ (nextTurn^[k] c).initiativeOrder,
          cb.status = CombatantStatus.active) ∧
        (nextTurn^[k] c).initiativeOrder.length =
          c.initiativeOrder.length ∧
        (nextTurn^[k] c).surprisedCombatantIds = c.surprisedCombatantIds ∧
        (if k < c.initiativeOrder.length then
          (nextTurn^[k] c).currentTurnIndex = k ∧
            (nextTurn^[k] c).round = c.round
         else
          (nextTurn^[k] c).currentTurnIndex = 0 ∧
            (nextTurn^[k] c).round = c.round + 1) := by
  intro k
  induction k with
  | zero =>
    intro hk
    refine ⟨hact, hall, rfl, rfl, ?_⟩
    rw [if_pos hn]
    exact ⟨hidx0, rfl⟩
  | succ k ih =>
    intro hk
    have hklt : k < c.initiativeOrder.length := by omega
    rcases ih (by omega) with ⟨hact', hall', hlen', hsur', hif⟩
    rw [if_pos hklt] at hif
    rcases hif with ⟨hidx', hround'⟩
    have hsur'' : (nextTurn^[k] c).surprisedCombatantIds = [] ∨
        1 < (nextTurn^[k] c).round := by
      rcases hsur with hs | hs
      · exact Or.inl (by rw [hsur', hs])
      · exact Or.inr (by rw [hround']; exact hs)
    have hstep := nextTurn_step (nextTurn^[k] c) hact' hall' hsur''
      (by rw [hidx', hlen']; exact hklt)
    rw [Function.iterate_succ_apply']
    rcases hstep with ⟨hs1, hs2, hs3, hs4, hs5, hs6⟩
    rw [hidx', hlen'] at hs1 hs2
    refine ⟨hs3, hs4, by rw [hs5, hlen'], by rw [hs6, hsur'], ?_⟩
    rcases Nat.lt_or_ge (k + 1) c.initiativeOrder.length with hlt | hge
    · rw [if_pos hlt]
      have hmod : (k + 1) % c.initiativeOrder.length = k + 1 :=
        Nat.mod_eq_of_lt hlt
      rw [hmod] at hs1 hs2
      rw [if_neg (by omega)] at hs2
      exact ⟨hs1, by rw [hs2, hround']⟩
    · rw [if_neg (by omega)]
      have heq : k + 1 = c.initiativeOrder.length := by omega
      have hmod : (k + 1) % c.initiativeOrder.length = 0 := by
        rw [heq, Nat.mod_self]
      rw [hmod] at hs1 hs2
      rw [if_pos rfl] at hs2
      exact ⟨hs1, by rw [hs2, hround']⟩

/--
C6: for an active combat whose combatants are all `active`, whose
`currentTurnIndex` is 0 and which has no surprise skip pending
(`surprisedCombatantIds` empty or round > 1), calling `nextTurn` once per
combatant in the initiative order returns `currentTurnIndex` to 0 and
increments `round` by exactly 1 — end-of-round processing fires exactly
once across the pass.
-/
theorem claim6_full_round_pass (c : Combat)
    (hact : c.isActive = true)
    (hall : ∀ cb ∈ c.initiativeOrder, cb.status = CombatantStatus.active)
    (hidx : c.currentTurnIndex = 0)
    (hsur : c.surprisedCombatantIds = [] ∨ 1 < c.round)
    (hn : 0 < c.initiativeOrder.length) :
    (nextTurn^[c.initiativeOrder.length] c).currentTurnIndex = 0 ∧
      (nextTurn^[c.initiativeOrder.length] c).round = c.round + 1 := by
  have h := (nextTurn_iterate c hact hall hsur hidx hn
    c.initiativeOrder.length (Nat.le_refl _)).2.2.2.2
  rw [if_neg (lt_irrefl _)] at h
  exact h

/--
C6 witness: a two-player combat comes back to index 0 in round 2 after
two `nextTurn` calls.
-/
theorem claim6_witness :
    (nextTurn^[fixtureCombatPair.initiativeOrder.length]
        fixtureCombatPair).currentTurnIndex = 0 ∧
      (nextTurn^[fixtureCombatPair.initiativeOrder.length]
        fixtureCombatPair).round = fixtureCombatPair.round + 1 :=
  claim6_full_round_pass fixtureCombatPair rfl (by decide) rfl
    (Or.inl rfl) (by decide)

/-! ### Random source distribution (C5) -/

/-- Number of words below `N` in the residue class `r` mod `m`: the
ceiling `(N - r + (m - 1)) / m`. -/
theorem card_range_filter_mod (N m r : Nat) (hm : 0 < m) (hr : r < m) :
    ((Finset.range N).filter (fun w => w % m = r)).card =
      (N - r + (m - 1)) / m := by
  have himg : (Finset.range N).filter (fun w => w % m = r) =
      (Finset.range ((N - r + (m - 1)) / m)).image (fun k => k * m + r) := by
    ext w
    simp only [Finset.mem_filter, Finset.mem_range, Finset.mem_image]
    constructor
    · rintro ⟨hw, hmod⟩
      refine ⟨w / m, ?_, ?_⟩
      · rw [Nat.lt_iff_add_one_le, Nat.le_div_iff_mul_le hm]
        have hq : m * (w / m) + r = w := by
          conv_rhs => rw [← Nat.div_add_mod w m, hmod]
        have hq2 : (w / m + 1) * m = m * (w / m) + m := by ring
        omega
      · have hq : m * (w / m) + r = w := by
          conv_rhs => rw [← Nat.div_add_mod w m, hmod]
        have hq2 : w / m * m = m * (w / m) := by ring
        omega
    · rintro ⟨k, hk, rfl⟩
      rw [Nat.lt_iff_add_one_le, Nat.le_div_iff_mul_le hm] at hk
      have hq2 : (k + 1) * m = k * m + m := by ring
      refine ⟨by omega, ?_⟩
      rw [Nat.mul_comm k m, Nat.mul_add_mod, Nat.mod_eq_of_lt hr]
  rw [himg, Finset.card_image_of_injective _ ?inj, Finset.card_range]
  case inj =>
    intro a b hab
    simp only at hab
    have h' : a * m = b * m := by omega
    exact Nat.eq_of_mul_eq_mul_right hm h'

/-- The exact word count behind each outcome of the cryptographic path of
`randomInt`. -/
theorem cryptoOutcomeCount_eq (min max v : Int) (h1 : min ≤ v)
    (h2 : v ≤ max) :
    cryptoOutcomeCount min max v =
      (2 ^ 32 - (v - min).toNat + ((max - min + 1).toNat - 1)) /
        (max - min + 1).toNat := by
  unfold cryptoOutcomeCount
  have hm0 : 0 < (max - min + 1).toNat := by omega
  have hr : (v - min).toNat < (max - min + 1).toNat := by omega
  have hfe : (Finset.range (2 ^ 32)).filter (fun w => randomInt min max w = v) =
      (Finset.range (2 ^ 32)).filter
        (fun w => w % (max - min + 1).toNat = (v - min).toNat) := by
    apply Finset.filter_congr
    intro w _
    unfold randomInt
    dsimp only
    have hrel : (w : Int) % (max - min + 1) =
        ((w % (max - min + 1).toNat : Nat) : Int) := by
      calc (w : Int) % (max - min + 1)
          = (w : Int) % (((max - min + 1).toNat : Nat) : Int) := by
            rw [Int.toNat_of_nonneg (by omega : (0:Int) ≤ max - min + 1)]
        _ = ((w % (max - min + 1).toNat : Nat) : Int) :=
            Int.ofNat_mod_ofNat w (max - min + 1).toNat
    rw [hrel]
    omega
  rw [hfe]
  exact card_range_filter_mod (2 ^ 32) _ _ hm0 hr

/--
C5 counterexample: for the d20 range [1, 20] the outcomes are not
produced by equally many of the 2^32 generator words: outcome 1 is hit by
214748365 words while outcome 20 is hit by 214748364 (2^32 is not a
multiple of 20, so `min + (word % range)` is biased).
-/
theorem claim5_counterexample :
    cryptoOutcomeCount 1 20 1 = 214748365 ∧
      cryptoOutcomeCount 1 20 20 = 214748364 ∧
      cryptoOutcomeCount 1 20 1 ≠ cryptoOutcomeCount 1 20 20 := by
  have h1 := cryptoOutcomeCount_eq 1 20 1 (by norm_num) (by norm_num)
  have h2 := cryptoOutcomeCount_eq 1 20 20 (by norm_num) (by norm_num)
  refine ⟨?_, ?_, ?_⟩
  · rw [h1]; decide
  · rw [h2]; decide
  · rw [h1, h2]; decide

/--
C5 amended: on the cryptographically strong path `randomInt` always lands
in [min, max], and outcome `v` is produced by exactly
`(2^32 - (v - min) + range - 1) / range` of the 2^32 possible 32-bit
words (with `range = max - min + 1`) — so any two outcomes differ by at
most one word and the distribution is exactly uniform only when `range`
divides 2^32; for a d20 it is biased.
-/
theorem claim5_amended_randomInt (min max v : Int) (h1 : min ≤ v)
    (h2 : v ≤ max) :
    (∀ w : Nat, min ≤ randomInt min max w ∧ randomInt min max w ≤ max) ∧
      cryptoOutcomeCount min max v =
        (2 ^ 32 - (v - min).toNat + ((max - min + 1).toNat - 1)) /
          (max - min + 1).toNat := by
  refine ⟨fun w => ?_, cryptoOutcomeCount_eq min max v h1 h2⟩
  unfold randomInt
  dsimp only
  have hne : max - min + 1 ≠ 0 := by omega
  have hpos : (0 : Int) < max - min + 1 := by omega
  have hlo := Int.emod_nonneg (w : Int) hne
  have hhi := Int.emod_lt_of_pos (w : Int) hpos
  omega

/--
C5 witness: for the d20 range, `randomInt` maps word 7 into [1, 20] and
outcome 5 is produced by 214748365 words.
-/
theorem claim5_witness :
    (1 ≤ randomInt 1 20 7 ∧ randomInt 1 20 7 ≤ 20) ∧
      cryptoOutcomeCount 1 20 5 = 214748365 := by
  have h := claim5_amended_randomInt 1 20 5 (by norm_num) (by norm_num)
  refine ⟨h.1 7, ?_⟩
  rw [h.2]
  decide

/-! ### Numeric bounds invariant (C7) -/

theorem endOfRoundCombatant_hpBounds {cb : Combatant}
    (h : hpBounds cb ∧ 0 ≤ cb.speed) :
    hpBounds (endOfRoundCombatant cb) ∧ 0 ≤ (endOfRoundCombatant cb).speed :=
  h

theorem combatBounds_processEndOfRound {c : Combat} (h : combatBounds c) :
    combatBounds (processEndOfRound c) := by
  intro cb hcb
  unfold processEndOfRound at hcb
  dsimp only at hcb
  rcases List.mem_map.mp hcb with ⟨cb₀, hcb₀, rfl⟩
  exact endOfRoundCombatant_hpBounds (h cb₀ hcb₀)

theorem combatBounds_landCombat {u : Combat} (i : Nat)
    (h : combatBounds u) : combatBounds (landCombat i u).1 := by
  unfold landCombat
  rcases hg : u.initiativeOrder[i]? with _ | cur <;> dsimp only
  · exact h
  · have hcur := h cur (by
      rcases List.getElem?_eq_some_iff.mp hg with ⟨hl, he⟩
      exact he ▸ List.getElem_mem hl)
    intro cb hcb
    refine forall_mem_set h ?_ cb hcb
    exact ⟨⟨hcur.1.1, hcur.1.2.1, hcur.1.2.2.1, hcur.2⟩, hcur.2⟩

theorem combatBounds_nextTurnAux :
    ∀ (fuel : Nat) (c : Combat), combatBounds c →
      combatBounds (nextTurnAux fuel c) := by
  intro fuel
  induction fuel with
  | zero => intro c h; exact h
  | succ fuel ih =>
    intro c h
    unfold nextTurnAux
    split
    · exact h
    · split
      · exact h
      · have hupd : combatBounds
            (loopGo c.initiativeOrder.length (c.initiativeOrder.length - 1)
              c.currentTurnIndex c).2 :=
          loopGo_preserves combatBounds
            (fun _ hu => combatBounds_processEndOfRound hu)
            c.initiativeOrder.length (c.initiativeOrder.length - 1)
            c.currentTurnIndex c h
        split
        · exact ih _ (combatBounds_landCombat _ hupd)
        · exact combatBounds_landCombat _ hupd

/--
C7: every `applyDamage`, every `applyHealing` with nonnegative amount,
every `useMovement`, every `addTempHp` with nonnegative amount,
`processEndOfRound` and `nextTurn` preserve the per-combatant bounds
`0 ≤ currentHp ≤ maxHp`, `tempHp ≥ 0`, `movementRemaining ≥ 0` (together
with `speed ≥ 0`, which turn-resource resets copy into movement).
-/
theorem claim7_bounds_invariant (c : Combat) (h : combatBounds c) :
    (∀ tid amount dt src res, applyDamage c tid amount dt src = some res →
        combatBounds res.combat) ∧
      (∀ tid amount src res, 0 ≤ amount →
        applyHealing c tid amount src = some res → combatBounds res.combat) ∧
      (∀ cid amount, combatBounds (useMovement c cid amount)) ∧
      (∀ tid amount, 0 ≤ amount → combatBounds (addTempHp c tid amount)) ∧
      combatBounds (processEndOfRound c) ∧
      combatBounds (nextTurn c) := by
  refine ⟨?_, ?_, ?_, ?_, combatBounds_processEndOfRound h,
    combatBounds_nextTurnAux _ c h⟩
  · intro tid amount dt src res hres
    rcases hft : findTarget c tid with _ | ⟨i, target⟩
    · unfold applyDamage at hres
      rw [hft] at hres
      simp at hres
    · rw [applyDamage_eq amount dt src hft] at hres
      replace hres := (Option.some_inj.mp hres).symm
      subst hres
      dsimp only
      have hb := h target (findTarget_mem hft)
      refine forall_mem_set h ?_
      rcases hb with ⟨⟨h1, h2, h3, h4⟩, h5⟩
      refine ⟨⟨?_, ?_, ?_, h4⟩, h5⟩ <;> dsimp only <;>
        split_ifs <;> dsimp only <;> omega
  · intro tid amount src res hamount hres
    unfold applyHealing at hres
    rcases hft : findTarget c tid with _ | ⟨i, target⟩ <;> rw [hft] at hres <;>
      dsimp only at hres
    · simp at hres
    · replace hres := (Option.some_inj.mp hres).symm
      subst hres
      dsimp only
      have hb := h target (findTarget_mem hft)
      refine forall_mem_set h ?_
      rcases hb with ⟨⟨h1, h2, h3, h4⟩, h5⟩
      refine ⟨⟨?_, ?_, h3, h4⟩, h5⟩
      · exact le_min (le_trans h1 h2) (add_nonneg h1 hamount)
      · exact min_le_left _ _
  · intro cid amount
    unfold useMovement
    rcases hft : findTarget c cid with _ | ⟨i, target⟩ <;> dsimp only
    · exact h
    · have hb := h target (findTarget_mem hft)
      refine forall_mem_set h ?_
      rcases hb with ⟨⟨h1, h2, h3, h4⟩, h5⟩
      exact ⟨⟨h1, h2, h3, le_max_left 0 _⟩, h5⟩
  · intro tid amount hamount
    unfold addTempHp
    rcases hft : findTarget c tid with _ | ⟨i, target⟩ <;> dsimp only
    · exact h
    · have hb := h target (findTarget_mem hft)
      refine forall_mem_set h ?_
      rcases hb with ⟨⟨h1, h2, h3, h4⟩, h5⟩
      exact ⟨⟨h1, h2, le_trans h3 (le_max_left _ _), h4⟩, h5⟩

/--
C7 witness: the bounds are preserved by a concrete overkill `applyDamage`
call that floors the hero at 0 HP.
-/
theorem claim7_witness : combatBounds fixtureDownRes.combat :=
  (claim7_bounds_invariant fixtureCombatPlain (by decide)).1
    "hero" 1000 "slashing" "hit" fixtureDownRes (by decide)

/-! ### Dice grammar (C9) -/

theorem spanDigits_spec :
    ∀ (l a b : List Char), spanDigits l = (a, b) →
      l = a ++ b ∧ (∀ c ∈ a, c.isDigit = true) ∧
        (b = [] ∨ ∃ h2 t, b = h2 :: t ∧ h2.isDigit = false) := by
  intro l
  induction l with
  | nil =>
    intro a b h
    unfold spanDigits at h
    rcases h2 : a with _ | _
    · rcases h3 : b with _ | _
      · exact ⟨rfl, by simp, Or.inl rfl⟩
      · rw [h2, h3] at h
        exact absurd h (by simp)
    · rw [h2] at h
      exact absurd h (by simp)
  | cons c cs ih =>
    intro a b h
    unfold spanDigits at h
    by_cases hc : c.isDigit
    · rw [if_pos hc] at h
      dsimp only at h
      rcases hs : spanDigits cs with ⟨a', b'⟩
      rw [hs] at h
      have ha : a = c :: a' := (Prod.ext_iff.mp h.symm).1
      have hb : b = b' := (Prod.ext_iff.mp h.symm).2
      rcases ih a' b' hs with ⟨he, hd, hbv⟩
      subst ha
      subst hb
      refine ⟨by rw [List.cons_append, ← he], ?_, hbv⟩
      intro x hx
      rcases List.mem_cons.mp hx with rfl | hx
      · exact hc
      · exact hd x hx
    · rw [if_neg hc] at h
      have ha : a = [] := (Prod.ext_iff.mp h.symm).1
      have hb : b = c :: cs := (Prod.ext_iff.mp h.symm).2
      subst ha hb
      exact ⟨rfl, by simp, Or.inr ⟨c, cs, rfl, by
        rw [Bool.not_eq_true] at hc; exact hc⟩⟩

theorem spanDigits_append :
    ∀ (pre post : List Char), (∀ c ∈ pre, c.isDigit = true) →
      (post = [] ∨ ∃ h2 t, post = h2 :: t ∧ h2.isDigit = false) →
      spanDigits (pre ++ post) = (pre, post) := by
  intro pre
  induction pre with
  | nil =>
    intro post _ hpost
    rcases hpost with rfl | ⟨h2, t, rfl, hh⟩
    · rfl
    · rw [List.nil_append]
      unfold spanDigits
      rw [if_neg (by rw [hh]; exact Bool.false_ne_true)]
  | cons c cs ih =>
    intro post hpre hpost
    rw [List.cons_append]
    unfold spanDigits
    rw [if_pos (hpre c (List.mem_cons_self c cs))]
    dsimp only
    rw [ih post (fun x hx => hpre x (List.mem_cons_of_mem c hx)) hpost]

theorem parseKeep_sound (l : List Char) (kr : Option (Bool × List Char) ×
    List Char) (h : parseKeep l = some kr) :
    (kr.1 = none ∧ kr.2 = l) ∨
      (∃ b nd, kr.1 = some (b, nd) ∧ nd ≠ [] ∧
        (∀ c ∈ nd, c.isDigit = true) ∧
        l = 'k' :: (if b then 'h' else 'l') :: (nd ++ kr.2) ∧
        (kr.2 = [] ∨ ∃ h2 t, kr.2 = h2 :: t ∧ h2.isDigit = false)) := by
  unfold parseKeep at h
  split at h
  · rename_i c1 c2 r
    split at h
    · rename_i hkh
      obtain ⟨rfl, rfl⟩ := hkh
      split at h
      · exact absurd h (by simp)
      · rename_i hne
        replace h := (Option.some_inj.mp h).symm
        subst h
        rcases hs : spanDigits r with ⟨nd, r2⟩
        rcases spanDigits_spec r nd r2 hs with ⟨he, hd, hb⟩
        rw [hs] at hne
        dsimp only at hne ⊢
        refine Or.inr ⟨true, nd, rfl, by simpa using hne, hd, ?_, hb⟩
        rw [if_pos rfl, he]
    · split at h
      · rename_i hkl
        obtain ⟨rfl, rfl⟩ := hkl
        split at h
        · exact absurd h (by simp)
        · rename_i hne
          replace h := (Option.some_inj.mp h).symm
          subst h
          rcases hs : spanDigits r with ⟨nd, r2⟩
          rcases spanDigits_spec r nd r2 hs with ⟨he, hd, hb⟩
          rw [hs] at hne
          dsimp only at hne ⊢
          refine Or.inr ⟨false, nd, rfl, by simpa using hne, hd, ?_, hb⟩
          rw [if_neg Bool.false_ne_true, he]
      · replace h := (Option.some_inj.mp h).symm
        subst h
        exact Or.inl ⟨rfl, rfl⟩
  · replace h := (Option.some_inj.mp h).symm
    subst h
    exact Or.inl ⟨rfl, rfl⟩

theorem parseMod_sound (l : List Char) (mp : Option (Char × List Char))
    (h : parseMod l = some mp) :
    (mp = none ∧ l = []) ∨
      (∃ sgn md, mp = some (sgn, md) ∧ (sgn = '+' ∨ sgn = '-') ∧
        md ≠ [] ∧ (∀ c ∈ md, c.isDigit = true) ∧ l = sgn :: md) := by
  unfold parseMod at h
  split at h
  · exact Or.inl ⟨(Option.some_inj.mp h).symm, rfl⟩
  · rename_i c r
    split at h
    · rename_i hsgn
      split at h
      · exact absurd h (by simp)
      · rename_i hcond
        replace h := (Option.some_inj.mp h).symm
        subst h
        rcases hs : spanDigits r with ⟨md, r2⟩
        rcases spanDigits_spec r md r2 hs with ⟨he, hd, _⟩
        rw [hs] at hcond
        dsimp only at hcond ⊢
        rw [Bool.not_eq_true, Bool.or_eq_false_iff] at hcond
        rcases hcond with ⟨hmd, hr2⟩
        refine Or.inr ⟨c, md, rfl, ?_, ?_, hd, ?_⟩
        · rcases Bool.or_eq_true_iff.mp hsgn with h1 | h1
          · exact Or.inl (eq_of_beq h1)
          · exact Or.inr (eq_of_beq h1)
        · intro hmd0
          rw [hmd0] at hmd
          exact absurd hmd (by simp)
        · have hr2e : r2 = [] := by
            rcases r2 with _ | ⟨x, xs⟩
            · rfl
            · exact absurd hr2 (by simp)
          rw [he, hr2e, List.append_nil]
    · exact absurd h (by simp)

theorem parseKeep_not_k (l : List Char)
    (h : ∀ h2 t, l = h2 :: t → h2 ≠ 'k') : parseKeep l = some (none, l) := by
  unfold parseKeep
  split
  · rename_i c1 c2 rest
    rw [if_neg (fun hh => (h c1 (c2 :: rest) rfl) hh.1),
      if_neg (fun hh => (h c1 (c2 :: rest) rfl) hh.1)]
  · rfl

theorem parseKeep_khl (b : Bool) (n M : List Char) (hne : n ≠ [])
    (hd : ∀ c ∈ n, c.isDigit = true)
    (hM : M = [] ∨ ∃ h2 t, M = h2 :: t ∧ h2.isDigit = false) :
    parseKeep ('k' :: (if b then 'h' else 'l') :: (n ++ M)) =
      some (some (b, n), M) := by
  have hs : spanDigits (n ++ M) = (n, M) := spanDigits_append n M hd hM
  have hni : n.isEmpty = false := by
    cases n with
    | nil => exact absurd rfl hne
    | cons a t => rfl
  cases b
  · show parseKeep ('k' :: 'l' :: (n ++ M)) = some (some (false, n), M)
    unfold parseKeep
    dsimp only
    rw [if_neg (by decide), if_pos (by decide), hs]
    simp [hni]
  · show parseKeep ('k' :: 'h' :: (n ++ M)) = some (some (true, n), M)
    unfold parseKeep
    dsimp only
    rw [if_pos (by decide), hs]
    simp [hni]

theorem parseMod_signed (sgn : Char) (md : List Char)
    (hsg : sgn = '+' ∨ sgn = '-') (hne : md ≠ [])
    (hd : ∀ c ∈ md, c.isDigit = true) :
    parseMod (sgn :: md) = some (some (sgn, md)) := by
  have hsp : spanDigits (md ++ []) = (md, []) :=
    spanDigits_append md [] hd (Or.inl rfl)
  rw [List.append_nil] at hsp
  have hni : md.isEmpty = false := by
    cases md with
    | nil => exact absurd rfl hne
    | cons a t => rfl
  have hc : (sgn == '+' || sgn == '-') = true := by
    rcases hsg with rfl | rfl <;> decide
  unfold parseMod
  dsimp only
  rw [if_pos hc, hsp]
  simp [hni]

theorem parseDiceChars_build (cnt sds K M : List Char)
    (keep : Option (Bool × List Char)) (mpp : Option (Char × List Char))
    (hcd : ∀ c ∈ cnt, c.isDigit = true)
    (hsne : sds ≠ []) (hsd : ∀ c ∈ sds, c.isDigit = true)
    (hKM : K ++ M = [] ∨ ∃ h2 t, K ++ M = h2 :: t ∧ h2.isDigit = false)
    (hpk : parseKeep (K ++ M) = some (keep, M))
    (hpm : parseMod M = some mpp) :
    parseDiceChars (cnt ++ 'd' :: (sds ++ K ++ M)) =
      some ⟨cnt, sds, keep, mpp⟩ := by
  have hsp1 : spanDigits (cnt ++ 'd' :: (sds ++ K ++ M)) =
      (cnt, 'd' :: (sds ++ K ++ M)) :=
    spanDigits_append cnt _ hcd (Or.inr ⟨'d', _, rfl, by decide⟩)
  have hsp2 : spanDigits (sds ++ (K ++ M)) = (sds, K ++ M) :=
    spanDigits_append sds (K ++ M) hsd hKM
  have hsi : sds.isEmpty = false := by
    cases sds with
    | nil => exact absurd rfl hsne
    | cons a t => rfl
  unfold parseDiceChars
  rw [hsp1]
  dsimp only
  rw [if_pos rfl, List.append_assoc, hsp2]
  dsimp only
  rw [hsi, if_neg Bool.false_ne_true, hpk]
  dsimp only
  rw [hpm]

theorem parseDiceChars_renders (p : RawDice) (h : p.WF) :
    parseDiceChars p.renders = some p := by
  obtain ⟨cnt, sds, keep, mp⟩ := p
  obtain ⟨hcd, hsne, hsd, hk, hm⟩ := h
  rcases keep with _ | ⟨b, n⟩
  · rcases mp with _ | ⟨sgn, md⟩
    · exact parseDiceChars_build cnt sds [] [] none none hcd hsne hsd
        (Or.inl rfl) rfl rfl
    · rcases hm (sgn, md) rfl with ⟨hsg, hmne, hmd⟩
      have hsgd : sgn.isDigit = false := by
        rcases hsg with rfl | rfl <;> decide
      have hnk : ∀ h2 t, sgn :: md = h2 :: t → h2 ≠ 'k' := by
        intro h2 t hh
        rw [(List.cons.injEq _ _ _ _ ▸ hh : sgn = h2 ∧ md = t).1.symm]
        rcases hsg with rfl | rfl <;> decide
      exact parseDiceChars_build cnt sds [] (sgn :: md) none (some (sgn, md))
        hcd hsne hsd (Or.inr ⟨sgn, md, rfl, hsgd⟩)
        (parseKeep_not_k (sgn :: md) hnk)
        (parseMod_signed sgn md hsg hmne hmd)
  · rcases hk (b, n) rfl with ⟨hkne, hkd⟩
    rcases mp with _ | ⟨sgn, md⟩
    · have hpk : parseKeep (('k' :: (if b then 'h' else 'l') :: n) ++ []) =
          some (some (b, n), []) := by
        rw [List.cons_append, List.cons_append]
        exact parseKeep_khl b n [] hkne hkd (Or.inl rfl)
      cases b
      · exact parseDiceChars_build cnt sds ('k' :: 'l' :: n) [] (some (false, n))
          none hcd hsne hsd (Or.inr ⟨'k', _, rfl, by decide⟩) hpk rfl
      · exact parseDiceChars_build cnt sds ('k' :: 'h' :: n) [] (some (true, n))
          none hcd hsne hsd (Or.inr ⟨'k', _, rfl, by decide⟩) hpk rfl
    · rcases hm (sgn, md) rfl with ⟨hsg, hmne, hmd⟩
      have hsgd : sgn.isDigit = false := by
        rcases hsg with rfl | rfl <;> decide
      have hpk : parseKeep (('k' :: (if b then 'h' else 'l') :: n) ++
          (sgn :: md)) = some (some (b, n), sgn :: md) := by
        rw [List.cons_append, List.cons_append]
        exact parseKeep_khl b n (sgn :: md) hkne hkd
          (Or.inr ⟨sgn, md, rfl, hsgd⟩)
      cases b
      · exact parseDiceChars_build cnt sds ('k' :: 'l' :: n) (sgn :: md)
          (some (false, n)) (some (sgn, md)) hcd hsne hsd
          (Or.inr ⟨'k', _, rfl, by decide⟩) hpk
          (parseMod_signed sgn md hsg hmne hmd)
      · exact parseDiceChars_build cnt sds ('k' :: 'h' :: n) (sgn :: md)
          (some (true, n)) (some (sgn, md)) hcd hsne hsd
          (Or.inr ⟨'k', _, rfl, by decide⟩) hpk
          (parseMod_signed sgn md hsg hmne hmd)

theorem parseDiceChars_sound (input : List Char) (p : RawDice)
    (h : parseDiceChars input = some p) : p.WF ∧ p.renders = input := by
  unfold parseDiceChars at h
  rcases hsp : spanDigits input with ⟨cnt, rest⟩
  rw [hsp] at h
  dsimp only at h
  rcases spanDigits_spec input cnt rest hsp with ⟨hie, hid, hrest0⟩
  clear hrest0
  split at h
  · rename_i c rest2
    split at h
    · rename_i hcd'
      subst hcd'
      split at h
      · exact absurd h (by simp)
      · rename_i hne
        rcases hs2 : spanDigits rest2 with ⟨sds, rest3⟩
        rw [hs2] at h hne
        dsimp only at h hne
        rcases spanDigits_spec rest2 sds rest3 hs2 with ⟨h2e, h2d, _⟩
        have hsne : sds ≠ [] := by
          intro h0
          exact hne (by rw [h0]; rfl)
        rcases hpk : parseKeep rest3 with _ | kr
        · rw [hpk] at h
          exact absurd h (by simp)
        · rw [hpk] at h
          dsimp only at h
          rcases hpm : parseMod kr.2 with _ | mpp
          · rw [hpm] at h
            exact absurd h (by simp)
          · rw [hpm] at h
            dsimp only at h
            replace h := (Option.some_inj.mp h).symm
            subst h
            rcases parseKeep_sound rest3 kr hpk with ⟨hk1, hk2⟩ |
              ⟨b, nd, hk1, hknd, hkd, hk2, _⟩ <;>
              rcases parseMod_sound kr.2 mpp hpm with ⟨hm1, hm2⟩ |
                ⟨sgn, md, hm1, hmsg, hmne, hmd, hm2⟩
            · refine ⟨⟨hid, hsne, h2d, ?_, ?_⟩, ?_⟩
              · intro kn hkn
                rw [hk1] at hkn
                cases hkn
              · intro mn hmn
                rw [hm1] at hmn
                cases hmn
              · have hr3 : rest3 = [] := hk2.symm.trans hm2
                unfold RawDice.renders
                dsimp only
                simp [hk1, hm1, hie, h2e, hr3]
            · refine ⟨⟨hid, hsne, h2d, ?_, ?_⟩, ?_⟩
              · intro kn hkn
                rw [hk1] at hkn
                cases hkn
              · intro mn hmn
                rw [hm1] at hmn
                rw [← Option.some_inj.mp hmn]
                exact ⟨hmsg, hmne, hmd⟩
              · have hr3 : rest3 = sgn :: md := hk2.symm.trans hm2
                unfold RawDice.renders
                dsimp only
                simp [hk1, hm1, hie, h2e, hr3]
            · refine ⟨⟨hid, hsne, h2d, ?_, ?_⟩, ?_⟩
              · intro kn hkn
                rw [hk1] at hkn
                rw [← Option.some_inj.mp hkn]
                exact ⟨hknd, hkd⟩
              · intro mn hmn
                rw [hm1] at hmn
                cases hmn
              · unfold RawDice.renders
                dsimp only
                cases b <;> simp [hk1, hm1, hie, h2e, hk2, hm2]
            · refine ⟨⟨hid, hsne, h2d, ?_, ?_⟩, ?_⟩
              · intro kn hkn
                rw [hk1] at hkn
                rw [← Option.some_inj.mp hkn]
                exact ⟨hknd, hkd⟩
              · intro mn hmn
                rw [hm1] at hmn
                rw [← Option.some_inj.mp hmn]
                exact ⟨hmsg, hmne, hmd⟩
              · unfold RawDice.renders
                dsimp only
                cases b <;> simp [hk1, hm1, hie, h2e, hk2, hm2]
    · exact absurd h (by simp)
  · exact absurd h (by simp)

theorem khVal_or_klVal (p : RawDice) : p.khVal = none ∨ p.klVal = none := by
  obtain ⟨c, s, k, m⟩ := p
  rcases k with _ | ⟨b, n⟩
  · exact Or.inl rfl
  · cases b
    · exact Or.inl rfl
    · exact Or.inr rfl

/--
C9: `parseDiceNotation` succeeds exactly on strings that, after lowercasing
and removing all whitespace, match `[count]d<sides>[kh<N>|kl<N>][+|-mod]`
(a well-formed `RawDice` decomposition) with count (defaulting to 1 when
omitted) in [1,100] and sides in [1,100], returning that count, sides,
modifier (defaulting to 0) and at most one of keepHighest/keepLowest; it
fails with `InvalidNotation` (here `invalidFormat`) exactly when the
pattern does not match, with `InvalidDiceCount` exactly when the pattern
matches but count is outside [1,100], and with `InvalidDiceSides` exactly
when the pattern matches, count is in range, and sides is outside [1,100].
-/
theorem claim9_parse_grammar (s : String) :
    (∀ d, parseDice s = .ok d ↔
      ∃ p : RawDice, p.WF ∧ p.renders = normalizeInput s ∧
        1 ≤ p.countVal ∧ p.countVal ≤ 100 ∧
        1 ≤ p.sidesVal ∧ p.sidesVal ≤ 100 ∧
        d = ⟨p.countVal, p.sidesVal, p.modVal, p.khVal, p.klVal⟩) ∧
    (∀ d, parseDice s = .ok d → d.keepHighest = none ∨ d.keepLowest = none) ∧
    (parseDice s = .error .invalidFormat ↔
      ¬ ∃ p : RawDice, p.WF ∧ p.renders = normalizeInput s) ∧
    (parseDice s = .error .invalidDiceCount ↔
      ∃ p : RawDice, p.WF ∧ p.renders = normalizeInput s ∧
        (p.countVal < 1 ∨ 100 < p.countVal)) ∧
    (parseDice s = .error .invalidDiceSides ↔
      ∃ p : RawDice, p.WF ∧ p.renders = normalizeInput s ∧
        1 ≤ p.countVal ∧ p.countVal ≤ 100 ∧
        (p.sidesVal < 1 ∨ 100 < p.sidesVal)) := by
  unfold parseDice
  rcases hpc : parseDiceChars (normalizeInput s) with _ | p
  · dsimp only
    have hno : ¬ ∃ p : RawDice, p.WF ∧ p.renders = normalizeInput s := by
      rintro ⟨p, hw, hr⟩
      have h2 := parseDiceChars_renders p hw
      rw [hr, hpc] at h2
      exact absurd h2 (by simp)
    refine ⟨?_, ?_, ⟨fun _ => hno, fun _ => rfl⟩, ?_, ?_⟩
    · intro d
      exact ⟨fun h => absurd h (by simp),
        fun ⟨p, hw, hr, _⟩ => absurd ⟨p, hw, hr⟩ hno⟩
    · intro d h
      exact absurd h (by simp)
    · exact ⟨fun h => absurd h (by simp),
        fun ⟨p, hw, hr, _⟩ => absurd ⟨p, hw, hr⟩ hno⟩
    · exact ⟨fun h => absurd h (by simp),
        fun ⟨p, hw, hr, _⟩ => absurd ⟨p, hw, hr⟩ hno⟩
  · dsimp only
    rcases parseDiceChars_sound _ p hpc with ⟨hw, hr⟩
    have huniq : ∀ q : RawDice, q.WF → q.renders = normalizeInput s →
        q = p := by
      intro q hqw hqr
      have h2 := parseDiceChars_renders q hqw
      rw [hqr, hpc] at h2
      exact (Option.some_inj.mp h2).symm
    by_cases hcnt : p.countVal < 1 ∨ 100 < p.countVal
    · rw [if_pos hcnt]
      refine ⟨?_, ?_, ?_, ⟨fun _ => ⟨p, hw, hr, hcnt⟩, fun _ => rfl⟩, ?_⟩
      · intro d
        refine ⟨fun h => absurd h (by simp), ?_⟩
        rintro ⟨q, hqw, hqr, hq1, hq2, _, _, _⟩
        rw [huniq q hqw hqr] at hq1 hq2
        omega
      · intro d h
        exact absurd h (by simp)
      · refine ⟨fun h => absurd h (by simp), fun hno => ?_⟩
        exact absurd ⟨p, hw, hr⟩ hno
      · refine ⟨fun h => absurd h (by simp), ?_⟩
        rintro ⟨q, hqw, hqr, hq1, hq2, _⟩
        rw [huniq q hqw hqr] at hq1 hq2
        omega
    · rw [if_neg hcnt]
      by_cases hsd : p.sidesVal < 1 ∨ 100 < p.sidesVal
      · rw [if_pos hsd]
        refine ⟨?_, ?_, ?_, ?_,
          ⟨fun _ => ⟨p, hw, hr, by omega, by omega, hsd⟩, fun _ => rfl⟩⟩
        · intro d
          refine ⟨fun h => absurd h (by simp), ?_⟩
          rintro ⟨q, hqw, hqr, _, _, hq3, hq4, _⟩
          rw [huniq q hqw hqr] at hq3 hq4
          omega
        · intro d h
          exact absurd h (by simp)
        · refine ⟨fun h => absurd h (by simp), fun hno => ?_⟩
          exact absurd ⟨p, hw, hr⟩ hno
        · refine ⟨fun h => absurd h (by simp), ?_⟩
          rintro ⟨q, hqw, hqr, hq1⟩
          rw [huniq q hqw hqr] at hq1
          exact absurd hq1 hcnt
      · rw [if_neg hsd]
        refine ⟨?_, ?_, ?_, ?_, ?_⟩
        · intro d
          constructor
          · intro h
            replace h := Except.ok.inj h
            exact ⟨p, hw, hr, by omega, by omega, by omega, by omega, h.symm⟩
          · rintro ⟨q, hqw, hqr, _, _, _, _, rfl⟩
            rw [huniq q hqw hqr]
        · intro d h
          replace h := Except.ok.inj h
          subst h
          exact khVal_or_klVal p
        · refine ⟨fun h => absurd h (by simp), fun hno => ?_⟩
          exact absurd ⟨p, hw, hr⟩ hno
        · refine ⟨fun h => absurd h (by simp), ?_⟩
          rintro ⟨q, hqw, hqr, hq1⟩
          rw [huniq q hqw hqr] at hq1
          exact absurd hq1 hcnt
        · refine ⟨fun h => absurd h (by simp), ?_⟩
          rintro ⟨q, hqw, hqr, _, _, hq3⟩
          rw [huniq q hqw hqr] at hq3
          exact absurd hq3 hsd

/-- Witness: `2d6+3` parses to count 2, sides 6, modifier 3, no keeps. -/
theorem claim9_witness : parseDice "2d6+3" = .ok ⟨2, 6, 3, none, none⟩ :=
  ((claim9_parse_grammar "2d6+3").1 ⟨2, 6, 3, none, none⟩).mpr
    ⟨⟨['2'], ['6'], none, some ('+', ['3'])⟩,
      ⟨by decide, by decide, by decide,
        fun kn hkn => Option.noConfusion hkn,
        fun mn hmn => by
          rw [← Option.some_inj.mp hmn]
          exact ⟨Or.inl rfl, by decide, by decide⟩⟩,
      by decide, by decide, by decide, by decide, by decide, by decide⟩

/--
C10: `applyHealing` sets the target's status to `active` whenever the
post-heal current HP is positive, regardless of the prior status, and keeps
the prior status when the post-heal current HP is not positive.
-/
theorem claim10_applyHealing_status {c : Combat} {tid : String} {i : Nat}
    {target : Combatant} {res : HealResult} (amount : Int) (src : String)
    (ht : findTarget c tid = some (i, target))
    (hres : applyHealing c tid amount src = some res) :
    ∀ target' , res.combat.initiativeOrder[i]? = some target' →
      target'.currentHp = min target.maxHp (target.currentHp + amount) ∧
        target'.status =
          (if 0 < min target.maxHp (target.currentHp + amount) then .active
           else target.status) := by
  unfold applyHealing at hres
  rw [ht] at hres
  replace hres := (Option.some_inj.mp hres).symm
  subst hres
  intro target' hget'
  have hlen : i < c.initiativeOrder.length := findTarget_lt ht
  dsimp only at hget'
  rw [List.getElem?_set_self hlen] at hget'
  replace hget' := (Option.some_inj.mp hget').symm
  subst hget'
  exact ⟨rfl, rfl⟩

/--
C10 witness: healing the fled full-HP player `runaway` by 0 returns their
status to `active`.
-/
theorem claim10_witness :
    fixtureRunawayHealed.currentHp =
        min fixtureRunaway.maxHp (fixtureRunaway.currentHp + 0) ∧
      fixtureRunawayHealed.status =
        (if 0 < min fixtureRunaway.maxHp (fixtureRunaway.currentHp + 0) then
          .active
         else fixtureRunaway.status) :=
  @claim10_applyHealing_status fixtureCombatRunaway "runaway" 0 fixtureRunaway
    fixtureHealRes 0 "potion" (by decide) (by decide) fixtureRunawayHealed
    (by decide)

end AGM
